import Mathlib

/-!
# A shallow embedding of `lz77.h` (sysprog21/lz77)

This file models the single-header LZ77 codec of `src/lz77.h` in Lean 4 and
proves the specification claims about it.

Modelling conventions:

* A byte buffer is a `List Nat` whose entries are intended to be `< 256`
  (hypotheses state this where a proof needs it).  A byte store through a
  `uint8_t *` is modelled with an explicit `% 256`.
* Pointers become positions (`Nat` indices) into the buffer; `uint32_t`
  arithmetic that can wrap (the `ip - ref` pointer difference) is modelled
  with an explicit `% 2^32`.
* The 32 KiB workspace (`uint32_t htab[8192]`) is a function `Nat → Nat`;
  `memset(htab, 0, LZ77_WORKMEM_SIZE)` zeroes exactly the indices `< 8192`.
* `lz77_read32` uses `memcpy` from an unaligned pointer; we model the
  little-endian byte order (the order the library is exercised under),
  which is the only order in which the three low bytes of
  `lz77_read32(p) & 0xffffff` are the three bytes at `p`.
* Every C loop is translated to structural recursion on an explicit fuel
  argument so that all definitions evaluate by kernel reduction; each
  wrapper passes a fuel that dominates the loop's iteration count, and the
  lemmas carry the (always satisfied) sufficiency bound.
* `lz77_decompress` returns `DecRes`: `.ok out` models `return op - out`
  with `out` the bytes written, `.fail` models the error `return 0`, and
  `.ub` marks a memory access outside the modelled buffers (C undefined
  behaviour).  The decoder-safety claim proves `.ub` is unreachable.
-/

set_option linter.unusedSectionVars false

/-! ## Constants from lz77.h -/

def MAX_COPY : Nat := 32

def MAX_LEN : Nat := 264

def MAX_DISTANCE : Nat := 8192

def MIN_MATCH_LEN : Nat := 3

def MIN_INPUT_SIZE : Nat := 13

def HASH_LOG : Nat := 13

def HASH_SIZE : Nat := 8192

def COMPRESS_OVERHEAD : Nat := 128

/-! ## Byte-level helpers -/

/-- Read the byte at position `i` (out-of-range reads default to `0`;
all reachable reads are proved in range where it matters). -/
def byteAt (x : List Nat) (i : Nat) : Nat := x.getD i 0

/-- `lz77_read32`: unaligned little-endian 32-bit load. -/
def lz77_read32 (x : List Nat) (i : Nat) : Nat :=
  byteAt x i + 256 * byteAt x (i + 1) + 65536 * byteAt x (i + 2) +
    16777216 * byteAt x (i + 3)

/-- `lz77_read32(p) & 0xffffff`: the three bytes at `p`, little-endian. -/
def seq3 (x : List Nat) (i : Nat) : Nat := lz77_read32 x i % 16777216

/-- `lz77_hash`: multiplicative hash onto `[0, 8192)`. -/
def lz77_hash (v : Nat) : Nat :=
  let v1 := v ^^^ (v >>> 15)
  ((v1 * 0x27d4eb2d) % 4294967296) >>> 19

/-- `memcpy(dest, &x[src], n)` as a list of the `n` bytes at `src`. -/
def copyBytes (x : List Nat) (src : Nat) : Nat → List Nat
  | 0 => []
  | n + 1 => byteAt x src :: copyBytes x (src + 1) n

/-! ## Token encoder (`literals` and `match` from lz77.h) -/

/-- Loop body of `literals`; one fuel unit per emitted chunk. -/
def literalsGo (x : List Nat) : Nat → Nat → Nat → List Nat
  | 0, _, _ => []
  | fuel + 1, runs, src =>
    if 32 ≤ runs then
      (31 :: copyBytes x src 32) ++ literalsGo x fuel (runs - 32) (src + 32)
    else if runs = 0 then []
    else (runs - 1) :: copyBytes x src runs

/-- `literals(runs, src, dest)`: encode a literal run of `runs` bytes taken
from `x` starting at `src`, split into `MAX_COPY`-byte chunks. -/
def literals (runs : Nat) (x : List Nat) (src : Nat) : List Nat :=
  literalsGo x runs runs src

/-- Loop body of `match`; `d` is the already-decremented distance. -/
def matchGo (d : Nat) : Nat → Nat → List Nat
  | 0, _ => []
  | fuel + 1, len =>
    if 262 < len then
      ((224 + (d >>> 8)) % 256) :: 253 :: (d % 256) ::
        matchGo d fuel (len - 262)
    else
      (((if len < 7 then len else 7) <<< 5 ||| (d >>> 8)) % 256) ::
        ((if 7 ≤ len then [(len - 7) % 256] else []) ++ [d % 256])

/-- `match(len, distance, op)`: encode a backward reference.  The C code
first decrements `distance` (a `uint32_t`, hence the `% 2^32`; the encoder
is only ever called with `distance ≥ 1`). -/
def match' (len distance : Nat) : List Nat :=
  matchGo ((distance + 4294967295) % 4294967296) (len + 1) len

/-! ## `match_len` -/

/-- Loop body of `match_len`; fuel bounds the remaining bytes. -/
def matchLenGo (x : List Nat) (iend : Nat) : Nat → Nat → Nat → Nat
  | 0, _, _ => 0
  | fuel + 1, ref, ip =>
    if ip < iend ∧ byteAt x ref = byteAt x ip then
      matchLenGo x iend fuel (ref + 1) (ip + 1) + 1
    else 0

/-- `match_len(ref, ip, ip_end)`: number of equal bytes from `ref`/`ip`
up to `iend` (exclusive). -/
def match_len (x : List Nat) (ref ip iend : Nat) : Nat :=
  matchLenGo x iend (iend - ip) ref ip

/-! ## Decoder result type -/

/-- Result of `lz77_decompress`: `ok out` is `return op - out` with `out`
the written bytes, `fail` is the error `return 0`, `ub` marks an access
outside the modelled buffers (C undefined behaviour; proved unreachable). -/
inductive DecRes where
  | ok (out : List Nat)
  | fail
  | ub
deriving DecidableEq

/-- Read one input byte at `i`, honouring the declared input length. -/
def readIn (x : List Nat) (length : Int) (i : Nat) : Option Nat :=
  if (i : Int) < length then x.get? i else none

/-- Read `n` consecutive input bytes starting at `i` (literal `memcpy`). -/
def memreadIn (x : List Nat) (length : Int) (i : Nat) : Nat → Option (List Nat)
  | 0 => some []
  | n + 1 =>
    match readIn x length i, memreadIn x length (i + 1) n with
    | some b, some bs => some (b :: bs)
    | _, _ => none

/-- Read `n` bytes of already-produced output starting at `i` (the
`memcpy` source of one chunk of the overlap-safe copy). -/
def memreadOut (out : List Nat) (i : Nat) : Nat → Option (List Nat)
  | 0 => some []
  | n + 1 =>
    match out.get? i, memreadOut out (i + 1) n with
    | some b, some bs => some (b :: bs)
    | _, _ => none

/-- The overlap-safe chunked copy of the decoder: repeatedly copy
`min remain distance` bytes from `ref` to the end of `out`.  `none` marks
an out-of-range source read (never happens on the guarded calls). -/
def refCopy (out : List Nat) (ref d : Nat) : Nat → Nat → Option (List Nat)
  | 0, remain => if remain = 0 then some out else none
  | fuel + 1, remain =>
    if remain = 0 then some out
    else if d = 0 then none
    else
      let chunk := min remain d
      match memreadOut out ref chunk with
      | some bs => refCopy (out ++ bs) (ref + chunk) d fuel (remain - chunk)
      | none => none

/-- `ip_bound = (length >= 2) ? ip_limit - 2 : ip`, as a position. -/
def ipBound (length : Int) : Int := if 2 ≤ length then length - 2 else 0

/-- The decoder's main loop.  State: `ip` is the input position just past
the current control byte `ctrl`, `out` the output written so far.  One
fuel unit per loop iteration. -/
def decLoopGo (x : List Nat) (length max_out : Int) :
    Nat → Nat → Nat → List Nat → DecRes
  | 0, _, _, _ => DecRes.ub
  | fuel + 1, ip, ctrl, out =>
    if 32 ≤ ctrl then
      -- match token
      let len0 := (ctrl >>> 5) - 1
      let ofs := (ctrl % 32) <<< 8
      if len0 = 6 ∧ (ip : Int) > ipBound length then DecRes.fail
      else
        match (if len0 = 6 then (readIn x length ip).map (fun b => (len0 + b, ip + 1))
               else some (len0, ip)) with
        | none => DecRes.ub
        | some li =>
          let len1 := li.1
          let ip1 := li.2
          match readIn x length ip1 with
          | none => DecRes.ub
          | some low =>
            let ip2 := ip1 + 1
            let ref : Int := (out.length : Int) - ofs - 1 - low
            let len := len1 + 3
            if (out.length : Int) + len > max_out ∨ ref < 0 then DecRes.fail
            else
              match refCopy out ref.toNat (out.length - ref.toNat) len len with
              | none => DecRes.ub
              | some out' =>
                if (ip2 : Int) > ipBound length then DecRes.ok out'
                else
                  match readIn x length ip2 with
                  | none => DecRes.ub
                  | some c => decLoopGo x length max_out fuel (ip2 + 1) c out'
    else
      -- literal run
      let c1 := ctrl + 1
      if (out.length : Int) + c1 > max_out ∨ (ip : Int) + c1 > length then
        DecRes.fail
      else
        match memreadIn x length ip c1 with
        | none => DecRes.ub
        | some bs =>
          let out' := out ++ bs
          let ip' := ip + c1
          if (ip' : Int) > ipBound length then DecRes.ok out'
          else
            match readIn x length ip' with
            | none => DecRes.ub
            | some c => decLoopGo x length max_out fuel (ip' + 1) c out'

/-- `lz77_decompress(in, length, out, max_out)`.  The first control byte is
read masked with `& 31`. -/
def lz77_decompress (x : List Nat) (length max_out : Int) : DecRes :=
  if length ≤ 0 then DecRes.fail
  else
    match readIn x length 0 with
    | none => DecRes.ub
    | some b => decLoopGo x length max_out length.toNat 1 (b % 32) []

/-! ## A parser for sequences of match tokens (used to state the
match-splitting claim): returns the `(decoded length, decoded distance)`
pairs of a byte string consisting solely of match tokens. -/

def parseMatchToks : Nat → List Nat → Option (List (Nat × Nat))
  | 0, l => if l = [] then some [] else none
  | _ + 1, [] => some []
  | fuel + 1, ctrl :: rest =>
    if ctrl < 32 then none
    else
      let cls := ctrl >>> 5
      let hi := ctrl % 32
      if cls = 7 then
        match rest with
        | ext :: low :: rest' =>
          (parseMatchToks fuel rest').map
            (fun ts => (ext + 9, hi * 256 + low + 1) :: ts)
        | _ => none
      else
        match rest with
        | low :: rest' =>
          (parseMatchToks fuel rest').map
            (fun ts => (cls + 2, hi * 256 + low + 1) :: ts)
        | _ => none

/-- Parse a byte string as a sequence of match tokens. -/
def parseMatch (l : List Nat) : Option (List (Nat × Nat)) :=
  parseMatchToks l.length l

/-! ## Compressor -/

/-- `htab[i] = v` as a functional update of the workspace. -/
def upd (h : Nat → Nat) (i v : Nat) : Nat → Nat :=
  fun j => if j = i then v else h j

/-- The inner candidate-scanning `do { ... } while (seq != cmp)` loop of
`lz77_compress`.  Returns the updated hash table and, when a match was
committed, the candidate position `c`, the reference position and the
distance.  `none` means the loop ran into `ip_limit` (the outer loop then
breaks and flushes the tail as literals).  One fuel unit per candidate. -/
def findMatchGo (x : List Nat) (limit : Nat) :
    Nat → Nat → (Nat → Nat) → (Nat → Nat) × Option (Nat × Nat × Nat)
  | 0, _, htab => (htab, none)
  | fuel + 1, ip, htab =>
    let seq := seq3 x ip
    let h := lz77_hash seq
    let ref := htab h
    let distance := (ip + 4294967296 - ref) % 4294967296
    let htab' := upd htab h ip
    let cmp := if distance < 8192 then seq3 x ref else 16777216
    if limit ≤ ip then (htab', none)
    else if seq = cmp then
      if limit ≤ ip + 1 then (htab', none) else (htab', some (ip, ref, distance))
    else findMatchGo x limit fuel (ip + 1) htab'

/-- Candidate scan with its natural fuel `limit + 1 - ip`. -/
def findMatch (x : List Nat) (limit ip : Nat) (htab : Nat → Nat) :
    (Nat → Nat) × Option (Nat × Nat × Nat) :=
  findMatchGo x limit (limit + 1 - ip) ip htab

/-- One lazy-lookahead probe of `lz77_compress` (the two `Step 1`/`Step 2`
blocks of the C code are textually parallel; this is their common body).
Probes position `pos` against the current best match length `bestLen` and
returns `some (length, distance)` when the candidate there is accepted. -/
def lazyCand (x : List Nat) (L : Nat) (htab : Nat → Nat) (pos bestLen : Nat) :
    Option (Nat × Nat) :=
  if pos < L - 13 then
    let seqN := seq3 x pos
    let refN := htab (lz77_hash seqN)
    let dN := (pos + 4294967296 - refN) % 4294967296
    if dN < 8192 ∧ seq3 x refN = seqN then
      let lenN := match_len x (refN + 3) (pos + 3) L + 1
      if bestLen + (if bestLen < 7 then 1 else 0) < lenN then some (lenN, dN)
      else none
    else none
  else none

/-- The shared tail of a committed-match iteration: advance the cursor
past the match (`ip += len` plus the two guarded boundary increments with
their hash-table updates) and apply the light backfill. -/
def advance (x : List Nat) (L len2 p : Nat) (htab : Nat → Nat) :
    Nat × (Nat → Nat) :=
  let ip2 := p + len2
  -- hash updates at the match boundary
  let htab2 :=
    if ip2 + 4 ≤ L then
      let seqA := lz77_read32 x ip2
      upd (upd htab (lz77_hash (seqA % 16777216)) ip2)
        (lz77_hash (seqA >>> 8)) (ip2 + 1)
    else htab
  let ip3 :=
    if ip2 + 4 ≤ L then ip2 + 2
    else if ip2 < L then (if ip2 + 1 < L then ip2 + 2 else ip2 + 1) else ip2
  -- light backfill for long matches
  let htab3 :=
    if 12 < len2 then
      let pb := ip3 - len2 + 5
      if 0 < pb ∧ pb + 3 < ip3 ∧ pb + 4 ≤ L then
        upd htab2 (lz77_hash (seq3 x pb)) pb
      else htab2
    else htab2
  (ip3, htab3)

/-- One committed-match iteration of the main loop of `lz77_compress`,
from the two-step lazy lookahead to the dictionary reseeding: given the
accepted candidate `(c, ref, d)` and the hash table after the scan,
returns the emitted bytes (pending lazy literals plus the match token),
the new cursor, and the new hash table. -/
def step (x : List Nat) (L c ref d : Nat) (htab : Nat → Nat) :
    List Nat × Nat × (Nat → Nat) :=
  let len0 := match_len x (ref + 3) (c + 3) L + 1
  -- Step 1: one-step lazy lookahead at ip+1
  let best1 := lazyCand x L htab (c + 1) len0
  let lazy1 := if best1.isSome then 1 else 0
  let len1 := (best1.getD (len0, d)).1
  let dist1 := (best1.getD (len0, d)).2
  -- Step 2: two-step lazy lookahead at ip+2
  let best2 := lazyCand x L htab (c + 2) len1
  let lazy2 := if best2.isSome then 2 else lazy1
  let len2 := (best2.getD (len1, dist1)).1
  let dist2 := (best2.getD (len1, dist1)).2
  let lazyOut := if 0 < lazy2 then literals lazy2 x c else []
  let p := c + lazy2
  (lazyOut ++ match' len2 dist2, advance x L len2 p htab)

/-- The outer `while (ip < ip_limit)` loop of `lz77_compress`: scan for a
match, emit the pending literal run, run `step`, and continue; on exit
flush the tail from `anchor` as literals.  One fuel unit per iteration. -/
def mainLoopGo (x : List Nat) (L : Nat) :
    Nat → Nat → Nat → (Nat → Nat) → List Nat
  | 0, _, anchor, _ => literals (L - anchor) x anchor
  | fuel + 1, ip, anchor, htab =>
    if ip < L - 13 then
      match findMatch x (L - 13) ip htab with
      | (_, none) => literals (L - anchor) x anchor
      | (htab1, some (c, ref, dis)) =>
        let s := step x L c ref dis htab1
        (if anchor < c then literals (c - anchor) x anchor else []) ++
          s.1 ++ mainLoopGo x L fuel s.2.1 s.2.1 s.2.2
    else literals (L - anchor) x anchor

/-- `lz77_compress(in, length, out, workmem)`: returns the compressed
bytes (the C return value is their count).  `memset(htab, 0, 32 KiB)`
zeroes the 8192 workspace slots; the input is read as `x`, the cursor
starts two bytes past the anchor. -/
def lz77_compress (x : List Nat) (length : Int) (workmem : Nat → Nat) :
    List Nat :=
  if length ≤ 0 then []
  else if length < 13 then literals length.toNat x 0
  else
    let L := length.toNat
    let htab : Nat → Nat := fun i => if i < 8192 then 0 else workmem i
    mainLoopGo x L L 2 0 htab

example :
    lz77_compress (List.replicate 20 65) 20 (fun _ => 0) = [1, 65, 65, 224, 9, 1] := by
  decide

example :
    lz77_decompress [1, 65, 65, 224, 9, 1] 6 20 = DecRes.ok (List.replicate 20 65) := by
  decide

/-! ## Basic byte-level lemmas -/

/-- All reads from `x` (in or out of range) produce a byte value. -/
def ByteOk (x : List Nat) : Prop := ∀ i, byteAt x i < 256

theorem byteOk_of_mem {x : List Nat} (h : ∀ b ∈ x, b < 256) : ByteOk x := by
  intro i
  unfold byteAt
  rw [List.getD_eq_getElem?_getD]
  rcases hg : x[i]? with _ | b
  · simp
  · have hm : b ∈ x := List.getElem?_mem hg
    simpa using h b hm

theorem lz77_hash_lt (v : Nat) : lz77_hash v < 8192 := by
  unfold lz77_hash
  have : ((v ^^^ (v >>> 15)) * 0x27d4eb2d) % 4294967296 < 4294967296 :=
    Nat.mod_lt _ (by norm_num)
  simp only [Nat.shiftRight_eq_div_pow]
  omega

theorem seq3_eq {x : List Nat} (hb : ByteOk x) (i : Nat) :
    seq3 x i = byteAt x i + 256 * byteAt x (i + 1) + 65536 * byteAt x (i + 2) := by
  have h0 := hb i
  have h1 := hb (i + 1)
  have h2 := hb (i + 2)
  unfold seq3 lz77_read32
  omega

theorem seq3_lt (x : List Nat) (i : Nat) : seq3 x i < 16777216 :=
  Nat.mod_lt _ (by norm_num)

/-- Equal three-byte sequences have equal bytes (base-256 uniqueness). -/
theorem seq3_inj {x : List Nat} (hb : ByteOk x) {i j : Nat}
    (h : seq3 x i = seq3 x j) :
    ∀ k < 3, byteAt x (i + k) = byteAt x (j + k) := by
  rw [seq3_eq hb, seq3_eq hb] at h
  have h0i := hb i
  have h1i := hb (i + 1)
  have h2i := hb (i + 2)
  have h0j := hb j
  have h1j := hb (j + 1)
  have h2j := hb (j + 2)
  intro k hk
  interval_cases k <;> (try simp only [Nat.add_zero]) <;> omega

theorem copyBytes_length (x : List Nat) : ∀ n src, (copyBytes x src n).length = n := by
  intro n
  induction n with
  | zero => intro src; rfl
  | succ m ih => intro src; simp [copyBytes, ih]

theorem copyBytes_take_drop (x : List Nat) :
    ∀ n src, src + n ≤ x.length → copyBytes x src n = (x.drop src).take n := by
  intro n
  induction n with
  | zero => intro src _; simp [copyBytes]
  | succ m ih =>
    intro src hle
    have hs : src < x.length := by omega
    have hbv : byteAt x src = x[src] := by
      unfold byteAt
      rw [List.getD_eq_getElem?_getD, List.getElem?_eq_getElem hs]
      rfl
    rw [List.drop_eq_getElem_cons hs, List.take_succ_cons]
    simp only [copyBytes]
    rw [hbv, ih (src + 1) (by omega)]

theorem take_append_copyBytes (x : List Nat) {a n : Nat} (h : a + n ≤ x.length) :
    x.take a ++ copyBytes x a n = x.take (a + n) := by
  rw [copyBytes_take_drop x n a h, List.take_add]


/-! ## Structure lemmas for the literal encoder -/

theorem literalsGo_zero (x : List Nat) (fuel src : Nat) :
    literalsGo x fuel 0 src = [] := by
  cases fuel <;> simp [literalsGo]

theorem literalsGo_fuel (x : List Nat) :
    ∀ f₁ f₂ runs src, runs ≤ f₁ → runs ≤ f₂ →
      literalsGo x f₁ runs src = literalsGo x f₂ runs src := by
  intro f₁
  induction f₁ with
  | zero =>
    intro f₂ runs src h1 _
    have : runs = 0 := by omega
    subst this
    rw [literalsGo_zero, literalsGo_zero]
  | succ f ih =>
    intro f₂ runs src h1 h2
    cases f₂ with
    | zero =>
      have : runs = 0 := by omega
      subst this
      rw [literalsGo_zero, literalsGo_zero]
    | succ g =>
      simp only [literalsGo]
      split
      · rw [ih g (runs - 32) (src + 32) (by omega) (by omega)]
      · rfl

/-- One-step unfolding of `literals` (the `while (runs >= MAX_COPY)` loop). -/
theorem literals_eq (runs : Nat) (x : List Nat) (src : Nat) :
    literals runs x src =
      if 32 ≤ runs then
        (31 :: copyBytes x src 32) ++ literals (runs - 32) x (src + 32)
      else if runs = 0 then [] else (runs - 1) :: copyBytes x src runs := by
  unfold literals
  cases hr : runs with
  | zero => simp [literalsGo_zero]
  | succ r =>
    simp only [literalsGo]
    split
    · rw [literalsGo_fuel x r (r + 1 - 32) (r + 1 - 32) (src + 32) (by omega) le_rfl]
    · rfl

theorem literals_length (x : List Nat) :
    ∀ runs src, (literals runs x src).length = runs + (runs + 31) / 32 := by
  intro runs
  induction runs using Nat.strong_induction_on with
  | _ runs ih =>
    intro src
    rw [literals_eq]
    split
    · rename_i h32
      have hlt : runs - 32 < runs := by omega
      rw [List.length_append, List.length_cons, copyBytes_length,
        ih (runs - 32) hlt (src + 32)]
      omega
    · split
      · rename_i h0
        subst h0
        rfl
      · rw [List.length_cons, copyBytes_length]
        omega

theorem literals_cons (x : List Nat) {runs : Nat} (src : Nat) (h : 1 ≤ runs) :
    ∃ b t, literals runs x src = b :: t ∧ b < 32 := by
  rw [literals_eq]
  split
  · exact ⟨31, _, rfl, by omega⟩
  · rw [if_neg (by omega)]
    exact ⟨runs - 1, _, rfl, by omega⟩

/-! ## Structure lemmas for the match encoder -/

theorem matchGo_fuel (d : Nat) :
    ∀ f₁ f₂ len, len < f₁ → len < f₂ → matchGo d f₁ len = matchGo d f₂ len := by
  intro f₁
  induction f₁ with
  | zero => intro f₂ len h1 _; omega
  | succ f ih =>
    intro f₂ len h1 h2
    cases f₂ with
    | zero => omega
    | succ g =>
      simp only [matchGo]
      split
      · rw [ih g (len - 262) (by omega) (by omega)]
      · rfl

/-- One-step unfolding of the match-splitting loop of `match`. -/
theorem match'_unfold (len d : Nat) :
    matchGo d (len + 1) len =
      if 262 < len then
        ((224 + (d >>> 8)) % 256) :: 253 :: (d % 256) ::
          matchGo d (len - 262 + 1) (len - 262)
      else
        (((if len < 7 then len else 7) <<< 5 ||| (d >>> 8)) % 256) ::
          ((if 7 ≤ len then [(len - 7) % 256] else []) ++ [d % 256]) := by
  conv_lhs => rw [matchGo]
  split
  · rw [matchGo_fuel d len (len - 262 + 1) (len - 262) (by omega) (by omega)]
  · rfl

/-- The `--distance` of a `uint32_t` on the reachable inputs. -/
theorem decrDist {dist : Nat} (h1 : 1 ≤ dist) (h2 : dist ≤ 4294967296) :
    (dist + 4294967295) % 4294967296 = dist - 1 := by
  omega


theorem shl5_lor (a q : Nat) (h : q < 32) : ((a <<< 5) ||| q) = 32 * a + q := by
  have h2 : q < 2 ^ 5 := h
  rw [Nat.shiftLeft_eq, Nat.mul_comm a (2 ^ 5), ← Nat.mul_add_lt_is_or h2 a]

/-- Emitted size of a match token sequence: at most `len + 1` bytes, and at
most `len` bytes once `len ≥ 2`. -/
theorem matchGo_length (d : Nat) :
    ∀ len, 1 ≤ len →
      (matchGo d (len + 1) len).length ≤ len + 1 ∧
        (2 ≤ len → (matchGo d (len + 1) len).length ≤ len) := by
  intro len
  induction len using Nat.strong_induction_on with
  | _ len ih =>
    intro h1
    rw [match'_unfold]
    split
    · rename_i h262
      have hlt : len - 262 < len := by omega
      have := (ih (len - 262) hlt (by omega)).1
      simp only [List.length_cons]
      omega
    · rename_i h262
      by_cases h7 : 7 ≤ len <;> simp [h7] <;> omega

/-! ## Decoder: fuel irrelevance and the continuation `decStep` -/

theorem decLoopGo_fuel (x : List Nat) (length max_out : Int) :
    ∀ (f₁ f₂ ip ctrl : Nat) (out : List Nat), 1 ≤ length → (ip : Int) ≤ ipBound length + 1 →
      length.toNat < ip + 2 * f₁ → length.toNat < ip + 2 * f₂ →
      decLoopGo x length max_out f₁ ip ctrl out =
        decLoopGo x length max_out f₂ ip ctrl out := by
  intro f₁
  induction f₁ with
  | zero =>
    intro f₂ ip ctrl out hlen hip h1 h2
    exfalso
    unfold ipBound at hip
    split at hip <;> omega
  | succ f ih =>
    intro f₂ ip ctrl out hlen hip h1 h2
    cases f₂ with
    | zero =>
      exfalso
      unfold ipBound at hip
      split at hip <;> omega
    | succ g =>
      simp only [decLoopGo]
      split
      · -- match token
        split
        · rfl
        · split
          · rfl
          · rename_i li heq
            have hip1 : ip ≤ li.2 ∧ li.2 ≤ ip + 1 := by
              split at heq
              · rcases hr : readIn x length ip with _ | b <;> rw [hr] at heq <;>
                  simp at heq
                rcases heq with ⟨h1eq, h2eq⟩
                omega
              · simp at heq
                rcases heq with ⟨h1eq, h2eq⟩
                omega
            split
            · rfl
            · split
              · rfl
              · split
                · rfl
                · split
                  · rfl
                  · split
                    · rfl
                    · apply ih <;> omega
      · -- literal run
        split
        · rfl
        · split
          · rfl
          · split
            · rfl
            · split
              · rfl
              · apply ih <;> omega

/-! ## Stream access lemmas -/

theorem drop_cons_head {S u : List Nat} {t b : Nat} (h : S.drop t = b :: u) :
    t < S.length ∧ S.get? t = some b ∧ S.drop (t + 1) = u := by
  have hlen : S.length - t = u.length + 1 := by
    have := congrArg List.length h
    simpa using this
  have ht : t < S.length := by omega
  refine ⟨ht, ?_, ?_⟩
  · have : (S.drop t).get? 0 = some b := by rw [h]; rfl
    rwa [List.get?_drop, Nat.add_zero] at this
  · have h2 : (S.drop t).drop 1 = u := by rw [h]; rfl
    rw [List.drop_drop] at h2
    exact h2

theorem readIn_self {S : List Nat} {t b : Nat} (h : S.get? t = some b) :
    readIn S (S.length : Int) t = some b := by
  have ht : t < S.length := List.get?_eq_some.mp h |>.1
  unfold readIn
  rw [if_pos (by exact_mod_cast ht)]
  exact h

theorem memreadIn_of_drop (S : List Nat) :
    ∀ (bs : List Nat) (t : Nat) (rest : List Nat), S.drop t = bs ++ rest →
      memreadIn S (S.length : Int) t bs.length = some bs := by
  intro bs
  induction bs with
  | nil => intro t rest _; rfl
  | cons b u ih =>
    intro t rest h
    rw [List.cons_append] at h
    obtain ⟨ht, hget, hdrop⟩ := drop_cons_head h
    simp only [List.length_cons, memreadIn, readIn_self hget, ih (t + 1) rest hdrop]

theorem memreadOut_take (x : List Nat) :
    ∀ (n i q : Nat), i + n ≤ q → q ≤ x.length →
      memreadOut (x.take q) i n = some (copyBytes x i n) := by
  intro n
  induction n with
  | zero => intro i q _ _; rfl
  | succ m ih =>
    intro i q h1 h2
    have hi : i < x.length := by omega
    have hgt : (x.take q).get? i = some (byteAt x i) := by
      rw [List.get?_take (by omega)]
      unfold byteAt
      rw [List.getD_eq_getElem?_getD, List.getElem?_eq_getElem hi]
      simp [List.get?_eq_getElem?, List.getElem?_eq_getElem hi]
    simp only [memreadOut, copyBytes, hgt, ih (i + 1) q (by omega) h2]

theorem copyBytes_congr (x : List Nat) :
    ∀ (n a b : Nat), (∀ j < n, byteAt x (a + j) = byteAt x (b + j)) →
      copyBytes x a n = copyBytes x b n := by
  intro n
  induction n with
  | zero => intro a b _; rfl
  | succ m ih =>
    intro a b h
    simp only [copyBytes]
    have h0 : byteAt x a = byteAt x b := by simpa using h 0 (by omega)
    rw [h0, ih (a + 1) (b + 1)
      (by
        intro j hj
        have := h (j + 1) (by omega)
        have e1 : a + 1 + j = a + (j + 1) := by omega
        have e2 : b + 1 + j = b + (j + 1) := by omega
        rw [e1, e2]
        exact this)]

/-! ## Correctness of the overlap-safe chunked copy -/

theorem refCopy_spec (x : List Nat) :
    ∀ (fuel n q d : Nat), n ≤ fuel → 1 ≤ d → d ≤ q → q + n ≤ x.length →
      (∀ j < n, byteAt x (q + j) = byteAt x (q - d + j)) →
      refCopy (x.take q) (q - d) d fuel n = some (x.take (q + n)) := by
  intro fuel
  induction fuel with
  | zero =>
    intro n q d hf _ _ _ _
    have : n = 0 := by omega
    subst this
    rfl
  | succ f ih =>
    intro n q d hf hd hdq hqn hcontent
    rcases Nat.eq_zero_or_pos n with hn0 | hn1
    · subst hn0
      simp [refCopy]
    · have hne : ¬ n = 0 := by omega
      have hdne : ¬ d = 0 := by omega
      have hchunk1 : 1 ≤ min n d := by omega
      have hread : memreadOut (x.take q) (q - d) (min n d) =
          some (copyBytes x (q - d) (min n d)) :=
        memreadOut_take x (min n d) (q - d) q (by omega) (by omega)
      simp only [refCopy, if_neg hne, if_neg hdne, hread]
      have hcopyeq : copyBytes x (q - d) (min n d) = copyBytes x q (min n d) := by
        apply copyBytes_congr
        intro j hj
        exact (hcontent j (by omega)).symm
      have happ : x.take q ++ copyBytes x (q - d) (min n d) = x.take (q + min n d) := by
        rw [hcopyeq, take_append_copyBytes x (by omega)]
      rw [happ]
      have hrefarg : q - d + min n d = (q + min n d) - d := by omega
      rw [hrefarg]
      have := ih (n - min n d) (q + min n d) d (by omega) hd (by omega) (by omega)
        (by
          intro j hj
          have h1 := hcontent (min n d + j) (by omega)
          have e1 : q + min n d + j = q + (min n d + j) := by omega
          have e2 : q + min n d - d + j = q - d + (min n d + j) := by omega
          rw [e1, e2, h1])
      rw [this]
      have : q + min n d + (n - min n d) = q + n := by omega
      rw [this]


/-! ## The between-tokens continuation of the decoder -/

/-- After each decoded token the decoder either stops (cursor past
`ip_bound`) or reads the next control byte and continues.  `decStep` names
this continuation (with an always-sufficient fuel). -/
def decStep (x : List Nat) (length max_out : Int) (ip : Nat) (out : List Nat) :
    DecRes :=
  if (ip : Int) > ipBound length then DecRes.ok out
  else
    match readIn x length ip with
    | none => DecRes.ub
    | some c => decLoopGo x length max_out (length.toNat + 2) (ip + 1) c out

theorem decLoopGo_tail (x : List Nat) (l M : Int) (hl : 1 ≤ l) (ip' f : Nat)
    (out' : List Nat) (hf : l.toNat < ip' + 1 + 2 * f) :
    (if (ip' : Int) > ipBound l then DecRes.ok out'
     else
       match readIn x l ip' with
       | none => DecRes.ub
       | some c => decLoopGo x l M f (ip' + 1) c out') =
      decStep x l M ip' out' := by
  unfold decStep
  split
  · rfl
  · rename_i hng
    rcases hr : readIn x l ip' with _ | c <;> simp only [hr]
    exact decLoopGo_fuel x l M f (l.toNat + 2) (ip' + 1) c out' hl (by omega) hf
      (by omega)

theorem ipBound_cast {n : Nat} (h : 2 ≤ n) :
    ipBound (n : Int) = (n : Int) - 2 := by
  unfold ipBound
  rw [if_pos (by exact_mod_cast h)]

theorem drop_of_drop_append {S bs u : List Nat} {t : Nat}
    (h : S.drop t = bs ++ u) : S.drop (t + bs.length) = u := by
  have h2 : (S.drop t).drop bs.length = u := by
    rw [h]
    exact List.drop_left bs u
  rw [List.drop_drop] at h2
  exact h2

/-! ## Decoding a literal run -/

theorem literals_zero (x : List Nat) (src : Nat) : literals 0 x src = [] := rfl

theorem decStep_literals (S x : List Nat) (M : Int) :
    ∀ runs a t (rest : List Nat), S.drop t = literals runs x a ++ rest →
      a + runs ≤ x.length → (x.length : Int) ≤ M → 2 ≤ S.length →
      decStep S (S.length : Int) M t (x.take a) =
        decStep S (S.length : Int) M (t + (literals runs x a).length)
          (x.take (a + runs)) := by
  intro runs
  induction runs using Nat.strong_induction_on with
  | _ runs ih =>
    intro a t rest hdrop hax hM hS2
    rcases Nat.eq_zero_or_pos runs with h0 | hpos
    · subst h0
      rw [literals_zero]
      simp
    · set m := min runs 32 with hm
      have hm1 : 1 ≤ m := by omega
      have hm32 : m ≤ 32 := by omega
      have hlit : literals runs x a =
          (m - 1) :: (copyBytes x a m ++ literals (runs - m) x (a + m)) := by
        rw [literals_eq]
        rcases le_or_lt 32 runs with h32 | h32
        · rw [if_pos h32]
          have hmeq : m = 32 := by omega
          rw [hmeq]
          simp
        · rw [if_neg (by omega), if_neg (by omega)]
          have hmr : m = runs := by omega
          rw [hmr, Nat.sub_self, literals_zero]
          simp
      rw [hlit] at hdrop
      rw [List.cons_append] at hdrop
      obtain ⟨ht, hget, hdrop1⟩ := drop_cons_head hdrop
      rw [List.append_assoc] at hdrop1
      have hdata : memreadIn S (S.length : Int) (t + 1) m = some (copyBytes x a m) := by
        have := memreadIn_of_drop S (copyBytes x a m) (t + 1) _ hdrop1
        rwa [copyBytes_length] at this
      have hlenS : S.length = t + 1 + m +
          ((literals (runs - m) x (a + m)).length + rest.length) := by
        have h1 := congrArg List.length hdrop
        rw [List.length_drop, List.length_cons, List.length_append,
          List.length_append, copyBytes_length] at h1
        omega
      have htake : (x.take a).length = a := by
        rw [List.length_take]
        omega
      have htn : ((S.length : Int)).toNat = S.length := Int.toNat_natCast _
      have hm11 : m - 1 + 1 = m := by omega
      rw [decStep]
      rw [if_neg (by
        rw [ipBound_cast hS2]
        push_cast
        omega)]
      simp only [readIn_self hget, htn]
      rw [show S.length + 2 = S.length + 1 + 1 from rfl]
      rw [decLoopGo]
      rw [if_neg (by omega : ¬ 32 ≤ m - 1)]
      simp only [hm11, htake]
      rw [if_neg (by
        push_neg
        constructor
        · push_cast
          omega
        · push_cast
          omega)]
      simp only [hdata]
      rw [take_append_copyBytes x (by omega)]
      rw [decLoopGo_tail S (S.length : Int) M (by push_cast; omega)
        (t + 1 + m) (S.length + 1) (x.take (a + m)) (by rw [htn]; omega)]
      have hdroprec : S.drop (t + 1 + m) = literals (runs - m) x (a + m) ++ rest := by
        have h2 := drop_of_drop_append hdrop1
        rwa [copyBytes_length] at h2
      have hrec := ih (runs - m) (by omega) (a + m) (t + 1 + m) rest hdroprec
        (by omega) hM hS2
      rw [hrec]
      rw [hlit]
      congr 1
      · simp [copyBytes_length]
        omega
      · congr 1
        omega

/-! ## Decoding a match token sequence -/

theorem shr8_eq (n : Nat) : n >>> 8 = n / 256 := by
  rw [Nat.shiftRight_eq_div_pow]

theorem shr5_eq (n : Nat) : n >>> 5 = n / 32 := by
  rw [Nat.shiftRight_eq_div_pow]

theorem shl8_eq (n : Nat) : n <<< 8 = n * 256 := by
  rw [Nat.shiftLeft_eq]

theorem decStep_match (S x : List Nat) (M : Int) :
    ∀ len, 1 ≤ len → ∀ (dist a t : Nat) (rest : List Nat),
      S.drop t = matchGo (dist - 1) (len + 1) len ++ rest →
      1 ≤ dist → dist ≤ 8191 → dist ≤ a → a + (len + 2) ≤ x.length →
      (∀ j < len + 2, byteAt x (a + j) = byteAt x (a - dist + j)) →
      (x.length : Int) ≤ M → 2 ≤ S.length →
      decStep S (S.length : Int) M t (x.take a) =
        decStep S (S.length : Int) M (t + (matchGo (dist - 1) (len + 1) len).length)
          (x.take (a + (len + 2))) := by
  intro len
  induction len using Nat.strong_induction_on with
  | _ len ih =>
    intro hlen1 dist a t rest hdrop hd1 hd8191 hda hax hcontent hM hS2
    have hdd : dist - 1 ≤ 8190 := by omega
    have htn : ((S.length : Int)).toNat = S.length := Int.toNat_natCast _
    have htake : (x.take a).length = a := by
      rw [List.length_take]
      omega
    rw [match'_unfold] at hdrop
    by_cases h262 : 262 < len
    · -- a maximum-size chunk token: control byte class 7, ext byte 253
      rw [if_pos h262] at hdrop
      set c0 := (224 + ((dist - 1) >>> 8)) % 256 with hc0
      have hc0v : c0 = 224 + (dist - 1) / 256 := by
        rw [hc0, shr8_eq]
        omega
      obtain ⟨ht, hget, hdrop1⟩ := drop_cons_head hdrop
      obtain ⟨ht2, hget2, hdrop2⟩ := drop_cons_head hdrop1
      obtain ⟨ht3, hget3, hdrop3⟩ := drop_cons_head hdrop2
      have hlenS : t + 3 ≤ S.length := by omega
      rw [decStep]
      rw [if_neg (by
        rw [ipBound_cast hS2]
        push_cast
        omega)]
      simp only [readIn_self hget, htn]
      rw [show S.length + 2 = S.length + 1 + 1 from rfl]
      rw [decLoopGo]
      rw [if_pos (by omega : 32 ≤ c0)]
      have hshift : c0 >>> 5 - 1 = 6 := by
        rw [shr5_eq]
        omega
      have hmod : c0 % 32 = (dist - 1) / 256 := by omega
      simp only [hshift, hmod]
      rw [if_neg (by
        push_neg
        intro _
        rw [ipBound_cast hS2]
        push_cast
        omega)]
      rw [if_true]
      simp only [readIn_self hget2, Option.map_some']
      simp only [readIn_self hget3]
      simp only [shl8_eq, htake]
      have hrefnat : (((a : Int)) - ((dist - 1) / 256 * 256 : Nat) - 1 -
          ((dist - 1) % 256 : Nat)).toNat = a - dist := by
        push_cast
        omega
      rw [if_neg (by
        push_neg
        constructor
        · push_cast
          omega
        · push_cast
          omega)]
      rw [hrefnat]
      have hcopy : refCopy (x.take a) (a - dist) (a - (a - dist)) (6 + 253 + 3)
          (6 + 253 + 3) = some (x.take (a + 262)) := by
        have hsub : a - (a - dist) = dist := by omega
        rw [hsub]
        have := refCopy_spec x 262 262 a dist le_rfl hd1 hda (by omega)
          (by
            intro j hj
            exact hcontent j (by omega))
        simpa using this
      rw [show (6 + 253 + 3 : Nat) = 262 from rfl] at hcopy
      rw [show ((6 + 253 : Nat) + 3) = 262 from rfl]
      simp only [hcopy]
      rw [decLoopGo_tail S (S.length : Int) M (by push_cast; omega)
        (t + 1 + 1 + 1) (S.length + 1) (x.take (a + 262)) (by rw [htn]; omega)]
      have hrec := ih (len - 262) (by omega) (by omega) dist (a + 262) (t + 1 + 1 + 1)
        rest hdrop3 hd1 hd8191 (by omega) (by omega)
        (by
          intro j hj
          have h1 := hcontent (262 + j) (by omega)
          have e1 : a + 262 + j = a + (262 + j) := by omega
          have e2 : a + 262 - dist + j = a - dist + (262 + j) := by omega
          rw [e1, e2]
          exact h1)
        hM hS2
      rw [hrec]
      have harg1 : t + 1 + 1 + 1 + (matchGo (dist - 1) (len - 262 + 1) (len - 262)).length
          = t + (matchGo (dist - 1) (len + 1) len).length := by
        conv_rhs => rw [match'_unfold, if_pos h262]
        simp only [List.length_cons]
        omega
      have harg2 : a + 262 + (len - 262 + 2) = a + (len + 2) := by omega
      rw [harg1, harg2]
    · -- the final token of the match
      rw [if_neg h262] at hdrop
      have hlen262 : len ≤ 262 := by omega
      have hq31 : (dist - 1) / 256 ≤ 31 := by omega
      have hRlen : (matchGo (dist - 1) (len + 1) len).length =
          if 7 ≤ len then 3 else 2 := by
        rw [match'_unfold, if_neg h262]
        by_cases h7 : 7 ≤ len <;> simp [h7]
      by_cases h7 : 7 ≤ len
      · -- length class 7: control byte, extension byte, distance byte
        rw [if_neg (by omega : ¬ len < 7), if_pos h7] at hdrop
        have hc0e : ((7 <<< 5 ||| (dist - 1) >>> 8)) % 256 = 224 + (dist - 1) / 256 := by
          rw [shl5_lor 7 ((dist - 1) >>> 8) (by rw [shr8_eq]; omega), shr8_eq]
          omega
        rw [hc0e] at hdrop
        have hext : (len - 7) % 256 = len - 7 := by omega
        rw [hext] at hdrop
        rw [List.cons_append, List.cons_append, List.cons_append] at hdrop
        obtain ⟨ht, hget, hdrop1⟩ := drop_cons_head hdrop
        obtain ⟨ht2, hget2, hdrop2⟩ := drop_cons_head hdrop1
        obtain ⟨ht3, hget3, hdrop3⟩ := drop_cons_head hdrop2
        rw [decStep]
        rw [if_neg (by
          rw [ipBound_cast hS2]
          push_cast
          omega)]
        simp only [readIn_self hget, htn]
        rw [show S.length + 2 = S.length + 1 + 1 from rfl]
        rw [decLoopGo]
        rw [if_pos (by omega : 32 ≤ 224 + (dist - 1) / 256)]
        have hshift : (224 + (dist - 1) / 256) >>> 5 - 1 = 6 := by
          rw [shr5_eq]
          omega
        have hmod : (224 + (dist - 1) / 256) % 32 = (dist - 1) / 256 := by omega
        simp only [hshift, hmod]
        rw [if_neg (by
          push_neg
          intro _
          rw [ipBound_cast hS2]
          push_cast
          omega)]
        rw [if_true]
        simp only [readIn_self hget2, Option.map_some']
        simp only [readIn_self hget3]
        simp only [shl8_eq, htake]
        have hrefnat : (((a : Int)) - (((dist - 1) / 256 * 256 : Nat) : Int) - 1 -
            (((dist - 1) % 256 : Nat) : Int)).toNat = a - dist := by
          push_cast
          omega
        rw [if_neg (by
          push_neg
          constructor
          · push_cast
            omega
          · push_cast
            omega)]
        rw [hrefnat]
        have hcopy : refCopy (x.take a) (a - dist) (a - (a - dist))
            (6 + (len - 7) + 3) (6 + (len - 7) + 3) = some (x.take (a + (len + 2))) := by
          have hsub : a - (a - dist) = dist := by omega
          have hlen63 : 6 + (len - 7) + 3 = len + 2 := by omega
          rw [hsub, hlen63]
          exact refCopy_spec x (len + 2) (len + 2) a dist le_rfl hd1 hda (by omega)
            (by intro j hj; exact hcontent j hj)
        simp only [hcopy]
        rw [decLoopGo_tail S (S.length : Int) M (by push_cast; omega)
          (t + 1 + 1 + 1) (S.length + 1) (x.take (a + (len + 2))) (by rw [htn]; omega)]
        rw [hRlen, if_pos h7]
      · -- length classes 1..6: control byte then distance byte
        have hlen7 : len < 7 := by omega
        rw [if_pos hlen7, if_neg h7] at hdrop
        have hc0e : ((len <<< 5 ||| (dist - 1) >>> 8)) % 256 =
            32 * len + (dist - 1) / 256 := by
          rw [shl5_lor len ((dist - 1) >>> 8) (by rw [shr8_eq]; omega), shr8_eq]
          omega
        rw [hc0e] at hdrop
        rw [List.nil_append, List.cons_append, List.cons_append] at hdrop
        obtain ⟨ht, hget, hdrop1⟩ := drop_cons_head hdrop
        obtain ⟨ht2, hget2, hdrop2⟩ := drop_cons_head hdrop1
        rw [decStep]
        rw [if_neg (by
          rw [ipBound_cast hS2]
          push_cast
          omega)]
        simp only [readIn_self hget, htn]
        rw [show S.length + 2 = S.length + 1 + 1 from rfl]
        rw [decLoopGo]
        rw [if_pos (by omega : 32 ≤ 32 * len + (dist - 1) / 256)]
        have hshift : (32 * len + (dist - 1) / 256) >>> 5 - 1 = len - 1 := by
          rw [shr5_eq]
          omega
        have hmod : (32 * len + (dist - 1) / 256) % 32 = (dist - 1) / 256 := by omega
        simp only [hshift, hmod]
        rw [if_neg (by
          push_neg
          intro h6
          exfalso
          omega)]
        rw [if_neg (by omega : ¬ len - 1 = 6)]
        simp only [readIn_self hget2]
        simp only [shl8_eq, htake]
        have hrefnat : (((a : Int)) - (((dist - 1) / 256 * 256 : Nat) : Int) - 1 -
            (((dist - 1) % 256 : Nat) : Int)).toNat = a - dist := by
          push_cast
          omega
        rw [if_neg (by
          push_neg
          constructor
          · push_cast
            omega
          · push_cast
            omega)]
        rw [hrefnat]
        have hcopy : refCopy (x.take a) (a - dist) (a - (a - dist))
            (len - 1 + 3) (len - 1 + 3) = some (x.take (a + (len + 2))) := by
          have hsub : a - (a - dist) = dist := by omega
          have hlen13 : len - 1 + 3 = len + 2 := by omega
          rw [hsub, hlen13]
          exact refCopy_spec x (len + 2) (len + 2) a dist le_rfl hd1 hda (by omega)
            (by intro j hj; exact hcontent j hj)
        simp only [hcopy]
        rw [decLoopGo_tail S (S.length : Int) M (by push_cast; omega)
          (t + 1 + 1) (S.length + 1) (x.take (a + (len + 2))) (by rw [htn]; omega)]
        rw [hRlen, if_neg h7]

/-! ## Token streams

`Tok` is the token alphabet of the wire format; `serFrom x a toks`
serialises a token sequence that starts at input position `a` (a literal
run covers the next `r` input bytes, a match token the next `len + 2`).
`Good x a toks` says the tokens tile `x` from `a` to its end and that
every match is in range, refers backwards by at most `8191 < 8192`
(`MAX_DISTANCE`), and reproduces the bytes it covers. -/

inductive Tok where
  | lit (r : Nat)
  | mat (len dist : Nat)
deriving DecidableEq

def serFrom (x : List Nat) : Nat → List Tok → List Nat
  | _, [] => []
  | a, Tok.lit r :: ts => literals r x a ++ serFrom x (a + r) ts
  | a, Tok.mat len dist :: ts => match' len dist ++ serFrom x (a + (len + 2)) ts

inductive Good (x : List Nat) : Nat → List Tok → Prop where
  | nil : Good x x.length []
  | lit {a r : Nat} {ts : List Tok} (hr : 1 ≤ r) (hle : a + r ≤ x.length)
      (h : Good x (a + r) ts) : Good x a (Tok.lit r :: ts)
  | mat {a len dist : Nat} {ts : List Tok} (hlen : 1 ≤ len) (hd1 : 1 ≤ dist)
      (hd : dist ≤ 8191) (hda : dist ≤ a) (hle : a + (len + 2) ≤ x.length)
      (hcontent : ∀ j < len + 2, byteAt x (a + j) = byteAt x (a - dist + j))
      (h : Good x (a + (len + 2)) ts) : Good x a (Tok.mat len dist :: ts)

theorem match'_eq_matchGo {len dist : Nat} (h1 : 1 ≤ dist) (h2 : dist ≤ 8192) :
    match' len dist = matchGo (dist - 1) (len + 1) len := by
  unfold match'
  rw [decrDist h1 (by omega)]

/-- Decoding simulation: from any point of the compressed stream that is
the serialisation of a `Good` token sequence, the decoder reconstructs
exactly the remaining input bytes and succeeds. -/
theorem decode_good (S x : List Nat) (M : Int) :
    ∀ (toks : List Tok) (a : Nat), Good x a toks →
      ∀ t, S.drop t = serFrom x a toks →
      (x.length : Int) ≤ M → 2 ≤ S.length →
      decStep S (S.length : Int) M t (x.take a) = DecRes.ok x := by
  intro toks
  induction toks with
  | nil =>
    intro a hg t hdrop hM hS2
    cases hg
    have hlen : S.length ≤ t := by
      have h1 := congrArg List.length hdrop
      rw [List.length_drop] at h1
      simp [serFrom] at h1
      omega
    rw [decStep, if_pos (by
      rw [ipBound_cast hS2]
      push_cast
      omega)]
    rw [List.take_length]
  | cons tok ts ih =>
    intro a hg t hdrop hM hS2
    cases hg with
    | lit hr hle h =>
      rename_i r
      rw [serFrom] at hdrop
      rw [decStep_literals S x M r a t (serFrom x (a + r) ts) hdrop hle hM hS2]
      exact ih (a + r) h (t + (literals r x a).length)
        (drop_of_drop_append hdrop) hM hS2
    | mat hlen hd1 hd hda hle hcontent h =>
      rename_i len dist
      rw [serFrom, match'_eq_matchGo hd1 (by omega)] at hdrop
      rw [decStep_match S x M len hlen dist a t (serFrom x (a + (len + 2)) ts)
        hdrop hd1 hd hda hle hcontent hM hS2]
      exact ih (a + (len + 2)) h (t + (matchGo (dist - 1) (len + 1) len).length)
        (drop_of_drop_append hdrop) hM hS2


/-! ## Properties of `match_len` -/

theorem matchLenGo_le (x : List Nat) (iend : Nat) :
    ∀ fuel ref ip, matchLenGo x iend fuel ref ip ≤ fuel := by
  intro fuel
  induction fuel with
  | zero => intro ref ip; simp [matchLenGo]
  | succ f ih =>
    intro ref ip
    simp only [matchLenGo]
    split
    · have := ih (ref + 1) (ip + 1)
      omega
    · omega

theorem match_len_le (x : List Nat) (ref ip iend : Nat) :
    match_len x ref ip iend ≤ iend - ip :=
  matchLenGo_le x iend (iend - ip) ref ip

theorem matchLenGo_spec (x : List Nat) (iend : Nat) :
    ∀ fuel ref ip k, k < matchLenGo x iend fuel ref ip →
      byteAt x (ref + k) = byteAt x (ip + k) := by
  intro fuel
  induction fuel with
  | zero => intro ref ip k hk; simp [matchLenGo] at hk
  | succ f ih =>
    intro ref ip k hk
    simp only [matchLenGo] at hk
    split at hk
    · rename_i hcond
      cases k with
      | zero =>
        simpa using hcond.2
      | succ j =>
        have := ih (ref + 1) (ip + 1) j (by omega)
        have e1 : ref + (j + 1) = ref + 1 + j := by omega
        have e2 : ip + (j + 1) = ip + 1 + j := by omega
        rw [e1, e2]
        exact this
    · omega

theorem match_len_spec (x : List Nat) (ref ip iend : Nat) :
    ∀ k < match_len x ref ip iend, byteAt x (ref + k) = byteAt x (ip + k) :=
  fun k hk => matchLenGo_spec x iend (iend - ip) ref ip k hk

/-! ## The accepted lazy candidates -/

theorem lazyCand_spec (x : List Nat) (L : Nat) (htab : Nat → Nat)
    (pos bestLen : Nat) (hb : ByteOk x) (hpos32 : pos < 4294967296)
    (hht : ∀ h < 8192, htab h < pos) :
    ∀ lenN dN, lazyCand x L htab pos bestLen = some (lenN, dN) →
      1 ≤ dN ∧ dN < 8192 ∧ dN ≤ pos ∧
        bestLen + (if bestLen < 7 then 1 else 0) < lenN ∧
        pos < L - 13 ∧ pos + lenN + 2 ≤ L ∧
        (∀ j < lenN + 2, byteAt x (pos + j) = byteAt x (pos - dN + j)) := by
  intro lenN dN hcand
  simp only [lazyCand] at hcand
  split at hcand
  case isFalse => simp at hcand
  rename_i hlim
  set refN := htab (lz77_hash (seq3 x pos)) with hrefN
  have hrlt : refN < pos := hht _ (lz77_hash_lt _)
  have hdval : (pos + 4294967296 - refN) % 4294967296 = pos - refN := by omega
  rw [hdval] at hcand
  by_cases hacc : (pos - refN < 8192 ∧ seq3 x refN = seq3 x pos)
  case neg =>
    rw [if_neg hacc] at hcand
    simp at hcand
  rw [if_pos hacc] at hcand
  obtain ⟨hd8, hseqeq⟩ := hacc
  by_cases hbetter : bestLen + (if bestLen < 7 then 1 else 0) <
      match_len x (refN + 3) (pos + 3) L + 1
  case neg =>
    rw [if_neg hbetter] at hcand
    simp at hcand
  rw [if_pos hbetter] at hcand
  simp only [Option.some.injEq, Prod.mk.injEq] at hcand
  obtain ⟨hlen, hdn⟩ := hcand
  subst hdn
  subst hlen
  have hml := match_len_spec x (refN + 3) (pos + 3) L
  have hmlle := match_len_le x (refN + 3) (pos + 3) L
  refine ⟨by omega, hd8, by omega, hbetter, hlim, ?_, ?_⟩
  · by_cases hp3 : pos + 3 ≤ L
    · omega
    · have : match_len x (refN + 3) (pos + 3) L = 0 := by omega
      omega
  · intro j hj
    have hsub : pos - (pos - refN) = refN := by omega
    rw [hsub]
    rcases Nat.lt_or_ge j 3 with hj3 | hj3
    · exact (seq3_inj hb hseqeq j hj3).symm
    · have := hml (j - 3) (by omega)
      have e1 : pos + j = pos + 3 + (j - 3) := by omega
      have e2 : refN + j = refN + 3 + (j - 3) := by omega
      rw [e1, e2]
      exact this.symm

/-! ## The candidate scan -/

theorem findMatchGo_some (x : List Nat) (limit : Nat) (hb : ByteOk x)
    (hlim32 : limit < 4294967296) :
    ∀ (fuel ip : Nat) (htab htab' : Nat → Nat) (c ref d : Nat),
      ip ≤ limit → (∀ h < 8192, htab h < ip) →
      findMatchGo x limit fuel ip htab = (htab', some (c, ref, d)) →
      ip ≤ c ∧ c + 1 < limit ∧ ref < c ∧ d = c - ref ∧ d < 8192 ∧
        seq3 x ref = seq3 x c ∧ (∀ h < 8192, htab' h ≤ c) := by
  intro fuel
  induction fuel with
  | zero =>
    intro ip htab htab' c ref d hip hht hfm
    simp [findMatchGo] at hfm
  | succ f ih =>
    intro ip htab htab' c ref d hip hht hfm
    simp only [findMatchGo] at hfm
    set ref0 := htab (lz77_hash (seq3 x ip)) with href0
    have hr0 : ref0 < ip := hht _ (lz77_hash_lt _)
    have hdval : (ip + 4294967296 - ref0) % 4294967296 = ip - ref0 := by omega
    rw [hdval] at hfm
    split at hfm
    case isTrue => simp at hfm
    rename_i hlim
    by_cases hseq : seq3 x ip = (if ip - ref0 < 8192 then seq3 x ref0 else 16777216)
    · rw [if_pos hseq] at hfm
      split at hfm
      next => simp at hfm
      next hlim2 =>
        simp only [Prod.mk.injEq, Option.some.injEq] at hfm
        obtain ⟨hup, hc, href, hd⟩ := hfm
        subst hc
        subst href
        subst hd
        have h8 : ip - ref0 < 8192 ∧ seq3 x ref0 = seq3 x ip := by
          by_cases h8' : ip - ref0 < 8192
          · rw [if_pos h8'] at hseq
            exact ⟨h8', hseq.symm⟩
          · rw [if_neg h8'] at hseq
            have := seq3_lt x ip
            omega
        refine ⟨le_rfl, by omega, by omega, rfl, h8.1, h8.2, ?_⟩
        intro h hh
        rw [← hup]
        unfold upd
        split
        · omega
        · exact Nat.le_of_lt (hht h hh)
    · rw [if_neg hseq] at hfm
      have hres := ih (ip + 1) (upd htab (lz77_hash (seq3 x ip)) ip) htab' c ref d
        (by omega)
        (by
          intro h hh
          unfold upd
          split
          · omega
          · exact Nat.lt_succ_of_lt (hht h hh))
        hfm
      refine ⟨by omega, hres.2.1, hres.2.2.1, hres.2.2.2.1, hres.2.2.2.2.1,
        hres.2.2.2.2.2.1, hres.2.2.2.2.2.2⟩


theorem advance_spec (x : List Nat) (L len2 p : Nat) (htab : Nat → Nat)
    (hlen : 1 ≤ len2) (hle : p + len2 + 2 ≤ L)
    (hbase : ∀ h < 8192, htab h ≤ p) :
    (advance x L len2 p htab).1 = p + len2 + 2 ∧
      (∀ h < 8192, (advance x L len2 p htab).2 h < p + len2 + 2) := by
  have hip3 : (advance x L len2 p htab).1 = p + len2 + 2 := by
    simp only [advance]
    split
    · rfl
    · rw [if_pos (by omega), if_pos (by omega)]
  refine ⟨hip3, ?_⟩
  intro h hh
  simp only [advance]
  have hup2 : ∀ h < 8192,
      (if p + len2 + 4 ≤ L then
        upd (upd htab (lz77_hash (lz77_read32 x (p + len2) % 16777216)) (p + len2))
          (lz77_hash (lz77_read32 x (p + len2) >>> 8)) (p + len2 + 1)
      else htab) h < p + len2 + 2 := by
    intro h2 hh2
    split
    · unfold upd
      split
      · omega
      · split
        · omega
        · have := hbase h2 hh2
          omega
    · have := hbase h2 hh2
      omega
  have hip3' : (if p + len2 + 4 ≤ L then p + len2 + 2
      else if p + len2 < L then (if p + len2 + 1 < L then p + len2 + 2 else p + len2 + 1)
      else p + len2) = p + len2 + 2 := by
    split
    · rfl
    · rw [if_pos (by omega), if_pos (by omega)]
  rw [hip3']
  split
  · split
    · unfold upd
      split
      · omega
      · exact hup2 h hh
    · exact hup2 h hh
  · exact hup2 h hh


theorem step_spec (x : List Nat) (L c ref d : Nat) (htab : Nat → Nat)
    (hb : ByteOk x) (hc32 : c + 2 < 4294967296)
    (hc : c + 1 < L - 13) (href : ref < c) (hd : d = c - ref) (hd8 : d < 8192)
    (hseq : seq3 x ref = seq3 x c) (hht : ∀ h < 8192, htab h ≤ c) :
    ∃ lazy len dist,
      (step x L c ref d htab).1 = literals lazy x c ++ match' len dist ∧
      lazy ≤ 2 ∧ 1 ≤ len ∧ (1 ≤ lazy → 2 ≤ len) ∧
      1 ≤ dist ∧ dist < 8192 ∧ dist ≤ c + lazy ∧
      (step x L c ref d htab).2.1 = c + lazy + (len + 2) ∧
      c + lazy + (len + 2) ≤ L ∧
      (∀ j < len + 2, byteAt x (c + lazy + j) = byteAt x (c + lazy - dist + j)) ∧
      (∀ h < 8192, (step x L c ref d htab).2.2 h <
        (step x L c ref d htab).2.1) := by
  have hmlle := match_len_le x (ref + 3) (c + 3) L
  have hml := match_len_spec x (ref + 3) (c + 3) L
  have hcont0 : ∀ j < (match_len x (ref + 3) (c + 3) L + 1) + 2,
      byteAt x (c + j) = byteAt x (c - d + j) := by
    intro j hj
    have hcd : c - d = ref := by omega
    rw [hcd]
    rcases Nat.lt_or_ge j 3 with hj3 | hj3
    · exact (seq3_inj hb hseq j hj3).symm
    · have := hml (j - 3) (by omega)
      have e1 : c + j = c + 3 + (j - 3) := by omega
      have e2 : ref + j = ref + 3 + (j - 3) := by omega
      rw [e1, e2]
      exact this.symm
  have hle0 : c + ((match_len x (ref + 3) (c + 3) L + 1) + 2) ≤ L := by omega
  have hd1 : 1 ≤ d := by omega
  have hdc : d ≤ c := by omega
  rcases hb1 : lazyCand x L htab (c + 1) (match_len x (ref + 3) (c + 3) L + 1)
    with _ | p1
  · rcases hb2 : lazyCand x L htab (c + 2) (match_len x (ref + 3) (c + 3) L + 1)
      with _ | p2
    · -- no lazy step: commit the candidate at c
      have hadv := advance_spec x L (match_len x (ref + 3) (c + 3) L + 1) c
        htab (by omega) (by omega) (by intro h hh; exact hht h hh)
      refine ⟨0, match_len x (ref + 3) (c + 3) L + 1, d, ?_, by omega, by omega,
        by omega, hd1, hd8, by omega, ?_, by omega, ?_, ?_⟩
      · simp [step, hb1, hb2, literals_zero]
      · simp [step, hb1, hb2]
        have h1 := hadv.1
        omega
      · simpa using hcont0
      · simp [step, hb1, hb2]
        intro h hh
        have h1 := hadv.1
        have h2 := hadv.2 h hh
        omega
    · -- two-step lazy accepted over the base candidate
      obtain ⟨lenN, dN⟩ := p2
      have hspec := lazyCand_spec x L htab (c + 2)
        (match_len x (ref + 3) (c + 3) L + 1) hb (by omega)
        (by intro h hh; have := hht h hh; omega) lenN dN hb2
      have hlenN2 : 2 ≤ lenN := by
        have := hspec.2.2.2.1
        split at this <;> omega
      have hadv := advance_spec x L lenN (c + 2) htab (by omega)
        (by have := hspec.2.2.2.2.2.1; omega)
        (by intro h hh; have := hht h hh; omega)
      refine ⟨2, lenN, dN, ?_, by omega, by omega, by omega, hspec.1,
        hspec.2.1, hspec.2.2.1, ?_, ?_, ?_, ?_⟩
      · simp [step, hb1, hb2]
      · simp [step, hb1, hb2]
        have h1 := hadv.1
        omega
      · have := hspec.2.2.2.2.2.1
        omega
      · exact hspec.2.2.2.2.2.2
      · simp [step, hb1, hb2]
        intro h hh
        have h1 := hadv.1
        have h2 := hadv.2 h hh
        omega
  · -- one-step lazy accepted
    obtain ⟨lenN, dN⟩ := p1
    have hspec1 := lazyCand_spec x L htab (c + 1)
      (match_len x (ref + 3) (c + 3) L + 1) hb (by omega)
      (by intro h hh; have := hht h hh; omega) lenN dN hb1
    have hlenN1 : 2 ≤ lenN := by
      have := hspec1.2.2.2.1
      split at this <;> omega
    rcases hb2 : lazyCand x L htab (c + 2) lenN with _ | p2
    · have hadv := advance_spec x L lenN (c + 1) htab (by omega)
        (by have := hspec1.2.2.2.2.2.1; omega)
        (by intro h hh; have := hht h hh; omega)
      refine ⟨1, lenN, dN, ?_, by omega, by omega, by omega, hspec1.1,
        hspec1.2.1, hspec1.2.2.1, ?_, ?_, ?_, ?_⟩
      · simp [step, hb1, hb2]
      · simp [step, hb1, hb2]
        have h1 := hadv.1
        omega
      · have := hspec1.2.2.2.2.2.1
        omega
      · exact hspec1.2.2.2.2.2.2
      · simp [step, hb1, hb2]
        intro h hh
        have h1 := hadv.1
        have h2 := hadv.2 h hh
        omega
    · obtain ⟨lenN2, dN2⟩ := p2
      have hspec2 := lazyCand_spec x L htab (c + 2) lenN hb (by omega)
        (by intro h hh; have := hht h hh; omega) lenN2 dN2 hb2
      have hlenN22 : 2 ≤ lenN2 := by
        have := hspec2.2.2.2.1
        split at this <;> omega
      have hadv := advance_spec x L lenN2 (c + 2) htab (by omega)
        (by have := hspec2.2.2.2.2.2.1; omega)
        (by intro h hh; have := hht h hh; omega)
      refine ⟨2, lenN2, dN2, ?_, by omega, by omega, by omega, hspec2.1,
        hspec2.2.1, hspec2.2.2.1, ?_, ?_, ?_, ?_⟩
      · simp [step, hb1, hb2]
      · simp [step, hb1, hb2]
        have h1 := hadv.1
        omega
      · have := hspec2.2.2.2.2.2.1
        omega
      · exact hspec2.2.2.2.2.2.2
      · simp [step, hb1, hb2]
        intro h hh
        have h1 := hadv.1
        have h2 := hadv.2 h hh
        omega

/-! ## The compressor emits a Good token stream -/

theorem serFrom_nil (x : List Nat) (a : Nat) : serFrom x a [] = [] := rfl

theorem serFrom_lit (x : List Nat) (a r : Nat) (ts : List Tok) :
    serFrom x a (Tok.lit r :: ts) = literals r x a ++ serFrom x (a + r) ts := rfl

theorem serFrom_mat (x : List Nat) (a len dist : Nat) (ts : List Tok) :
    serFrom x a (Tok.mat len dist :: ts) =
      match' len dist ++ serFrom x (a + (len + 2)) ts := rfl

theorem mainLoopGo_good (x : List Nat) (L : Nat) (hb : ByteOk x)
    (hL32 : L < 4294967296) (hL13 : 13 ≤ L) (hxL : x.length = L) :
    ∀ (fuel ip anchor : Nat) (htab : Nat → Nat),
      anchor ≤ ip → ip ≤ L → (∀ h < 8192, htab h < ip) → L ≤ ip + fuel →
      ∃ toks, Good x anchor toks ∧
        mainLoopGo x L fuel ip anchor htab = serFrom x anchor toks ∧
        (anchor < ip → ∃ r ts, toks = Tok.lit r :: ts ∧ ip - anchor ≤ r) := by
  intro fuel
  induction fuel with
  | zero =>
    intro ip anchor htab hai hil hht hfuel
    have hip : ¬ ip < L - 13 := by omega
    simp only [mainLoopGo]
    rcases Nat.eq_or_lt_of_le (show anchor ≤ L by omega) with haL | haL
    · refine ⟨[], by rw [haL, ← hxL]; exact Good.nil, ?_, ?_⟩
      · rw [serFrom_nil, haL, Nat.sub_self, literals_zero]
      · intro hlt
        omega
    · refine ⟨[Tok.lit (L - anchor)], ?_, ?_, ?_⟩
      · exact Good.lit (by omega) (by omega)
          (by rw [show anchor + (L - anchor) = L from by omega, ← hxL]; exact Good.nil)
      · rw [serFrom_lit, serFrom_nil, List.append_nil]
      · intro hlt
        exact ⟨L - anchor, [], rfl, by omega⟩
  | succ fuel ih =>
    intro ip anchor htab hai hil hht hfuel
    by_cases hip : ip < L - 13
    · rcases hfm : findMatch x (L - 13) ip htab with ⟨htab1, res⟩
      rcases res with _ | trip
      · -- scan ran into the limit: flush the tail
        simp only [mainLoopGo, if_pos hip, hfm]
        rcases Nat.eq_or_lt_of_le (show anchor ≤ L by omega) with haL | haL
        · refine ⟨[], by rw [haL, ← hxL]; exact Good.nil, ?_, ?_⟩
          · rw [serFrom_nil, haL, Nat.sub_self, literals_zero]
          · intro hlt
            omega
        · refine ⟨[Tok.lit (L - anchor)], ?_, ?_, ?_⟩
          · exact Good.lit (by omega) (by omega)
              (by rw [show anchor + (L - anchor) = L from by omega, ← hxL]; exact Good.nil)
          · rw [serFrom_lit, serFrom_nil, List.append_nil]
          · intro hlt
            exact ⟨L - anchor, [], rfl, by omega⟩
      · obtain ⟨c, ref, dis⟩ := trip
        have hfmg : findMatchGo x (L - 13) (L - 13 + 1 - ip) ip htab =
            (htab1, some (c, ref, dis)) := hfm
        have hfacts := findMatchGo_some x (L - 13) hb (by omega)
          (L - 13 + 1 - ip) ip htab htab1 c ref dis (by omega) hht hfmg
        obtain ⟨hic, hclim, hrefc, hdis, hdis8, hseqe, hh1⟩ := hfacts
        obtain ⟨lazy, len, dist, hbytes, hlazy2, hlen1, hlazylen, hdist1,
          hdist8, hdistp, hip3, hle, hcontent, hh3⟩ :=
          step_spec x L c ref dis htab1 hb (by omega) hclim hrefc hdis hdis8
            hseqe hh1
        have hih := ih ((step x L c ref dis htab1).2.1) ((step x L c ref dis htab1).2.1)
          ((step x L c ref dis htab1).2.2) le_rfl (by omega) hh3 (by omega)
        obtain ⟨toks', hgood', hser', _⟩ := hih
        rw [hip3] at hgood' hser'
        -- assemble this iteration's tokens
        refine ⟨(if anchor < c then [Tok.lit (c - anchor)] else []) ++
          (if 0 < lazy then [Tok.lit lazy] else []) ++ Tok.mat len dist :: toks',
          ?_, ?_, ?_⟩
        · have hgm : Good x (c + lazy) (Tok.mat len dist :: toks') :=
            Good.mat hlen1 hdist1 (by omega) hdistp (by omega)
              (by intro j hj; exact hcontent j hj) hgood'
          have hgl : Good x c ((if 0 < lazy then [Tok.lit lazy] else []) ++
              Tok.mat len dist :: toks') := by
            by_cases hl : 0 < lazy
            · rw [if_pos hl]
              exact Good.lit hl (by omega) hgm
            · rw [if_neg hl]
              have : lazy = 0 := by omega
              rw [this, Nat.add_zero] at hgm
              exact hgm
          by_cases hac : anchor < c
          · rw [if_pos hac]
            exact Good.lit (by omega) (by omega)
              (by rw [show anchor + (c - anchor) = c from by omega]; exact hgl)
          · rw [if_neg hac]
            have : anchor = c := by omega
            rw [this]
            exact hgl
        · simp only [mainLoopGo, if_pos hip, hfm]
          rw [hbytes, hip3]
          have hserm : serFrom x (c + lazy) (Tok.mat len dist :: toks') =
              match' len dist ++ serFrom x (c + lazy + (len + 2)) toks' := rfl
          by_cases hac : anchor < c
          · rw [if_pos hac, if_pos hac]
            simp only [List.cons_append, List.nil_append, serFrom_lit]
            rw [show anchor + (c - anchor) = c from by omega]
            by_cases hl : 0 < lazy
            · rw [if_pos hl]
              simp only [List.cons_append, List.nil_append, serFrom_lit]
              rw [serFrom_mat, hser']
              simp [List.append_assoc]
            · rw [if_neg hl]
              have hl0 : lazy = 0 := by omega
              simp only [List.nil_append]
              rw [serFrom_mat, hser']
              rw [hl0, literals_zero]
              simp [List.append_assoc]
          · rw [if_neg hac, if_neg hac]
            have hac' : anchor = c := by omega
            subst hac'
            simp only [List.nil_append]
            by_cases hl : 0 < lazy
            · rw [if_pos hl]
              simp only [List.cons_append, List.nil_append, serFrom_lit]
              rw [serFrom_mat, hser']
              simp [List.append_assoc]
            · rw [if_neg hl]
              have hl0 : lazy = 0 := by omega
              simp only [List.nil_append]
              rw [serFrom_mat, hser']
              rw [hl0, literals_zero]
              simp [List.append_assoc]
        · intro hlt
          have hac : anchor < c := by omega
          rw [if_pos hac]
          exact ⟨c - anchor, _, rfl, by omega⟩
    · simp only [mainLoopGo, if_neg hip]
      rcases Nat.eq_or_lt_of_le (show anchor ≤ L by omega) with haL | haL
      · refine ⟨[], by rw [haL, ← hxL]; exact Good.nil, ?_, ?_⟩
        · rw [serFrom_nil, haL, Nat.sub_self, literals_zero]
        · intro hlt
          omega
      · refine ⟨[Tok.lit (L - anchor)], ?_, ?_, ?_⟩
        · exact Good.lit (by omega) (by omega)
            (by rw [show anchor + (L - anchor) = L from by omega, ← hxL]; exact Good.nil)
        · rw [serFrom_lit, serFrom_nil, List.append_nil]
        · intro hlt
          exact ⟨L - anchor, [], rfl, by omega⟩


/-! ## Top-level round trip -/

theorem decompress_eq_decStep (S : List Nat) (M : Int) (b : Nat)
    (rest : List Nat) (hS : S = b :: rest) (hb32 : b < 32) (h2 : 2 ≤ S.length) :
    lz77_decompress S (S.length : Int) M = decStep S (S.length : Int) M 0 [] := by
  unfold lz77_decompress decStep
  rw [if_neg (by push_cast; omega : ¬ (S.length : Int) ≤ 0)]
  rw [if_neg (by rw [ipBound_cast h2]; push_cast; omega : ¬ ((0 : Nat) : Int) > ipBound (S.length : Int))]
  have hget : S.get? 0 = some b := by rw [hS]; rfl
  simp only [readIn_self hget, Nat.zero_add]
  have htn : ((S.length : Int)).toNat = S.length := Int.toNat_natCast _
  rw [htn, Nat.mod_eq_of_lt (by omega : b < 32)]
  exact decLoopGo_fuel S (S.length : Int) M S.length (S.length + 2) 1 b []
    (by push_cast; omega)
    (by rw [ipBound_cast h2]; push_cast; omega)
    (by omega) (by omega)

/-- C1.  Round-trip: compressing any byte sequence `x` (with the declared
length equal to its length and any workspace contents) and decompressing
the result with its exact compressed length and any output capacity of at
least `x.length` reconstructs `x` exactly; the decompressed length is the
length of `x`.  For empty `x` both calls return 0 (`DecRes.fail` is the
decoder's `return 0`), as the claim requires. -/
theorem C1_round_trip (x : List Nat) (w : Nat → Nat) (M : Int)
    (hbytes : ∀ b ∈ x, b < 256) (hM : (x.length : Int) ≤ M)
    (hL : x.length < 2147483648) :
    lz77_decompress (lz77_compress x (x.length : Int) w)
        ((lz77_compress x (x.length : Int) w).length : Int) M =
      if x = [] then DecRes.fail else DecRes.ok x := by
  have hb : ByteOk x := byteOk_of_mem hbytes
  by_cases hx : x = []
  · subst hx
    rw [if_pos rfl]
    rfl
  · rw [if_neg hx]
    have hL1 : 1 ≤ x.length := by
      rcases x with _ | _
      · exact absurd rfl hx
      · simp
    by_cases hL13 : x.length < 13
    · -- short-input path: a single literal run
      have hcomp : lz77_compress x (x.length : Int) w = literals x.length x 0 := by
        unfold lz77_compress
        rw [if_neg (by push_cast; omega), if_pos (by push_cast; omega)]
        rw [show ((x.length : Int)).toNat = x.length from Int.toNat_natCast _]
      rw [hcomp]
      set S := literals x.length x 0 with hSdef
      have hSlen : S.length = x.length + 1 := by
        rw [hSdef, literals_length]
        omega
      have hS2 : 2 ≤ S.length := by omega
      obtain ⟨b, t, hcons, hb32⟩ := @literals_cons x x.length 0 hL1
      have hdrop0 : S.drop 0 = literals x.length x 0 ++ [] := by
        rw [List.drop_zero, List.append_nil]
      have hlits := decStep_literals S x M x.length 0 0 [] hdrop0 (by omega) hM hS2
      rw [decompress_eq_decStep S M b t (by rw [hSdef, hcons]) hb32 hS2]
      rw [show (x.take 0) = ([] : List Nat) from rfl] at hlits
      rw [hlits]
      rw [decStep]
      rw [if_pos (by
        rw [ipBound_cast hS2]
        have : (literals x.length x 0).length = S.length := by rw [hSdef]
        rw [this]
        push_cast
        omega)]
      rw [show (0 + x.length) = x.length from by omega, List.take_length]
    · -- main compression path
      have hL13' : 13 ≤ x.length := by omega
      have hcomp : lz77_compress x (x.length : Int) w =
          mainLoopGo x x.length x.length 2 0
            (fun i => if i < 8192 then 0 else w i) := by
        unfold lz77_compress
        rw [if_neg (by push_cast; omega), if_neg (by push_cast; omega)]
        have htn : ((x.length : Int)).toNat = x.length := Int.toNat_natCast _
        rw [htn]
      obtain ⟨toks, hgood, hser, hhead⟩ := mainLoopGo_good x x.length hb
        (by omega) hL13' rfl x.length 2 0
        (fun i => if i < 8192 then 0 else w i)
        (by omega) (by omega)
        (by
          intro h hh
          show (if h < 8192 then 0 else w h) < 2
          rw [if_pos hh]
          omega)
        (by omega)
      obtain ⟨r, ts, htoks, hr2⟩ := hhead (by omega)
      rw [hcomp, hser]
      set S := serFrom x 0 toks with hSdef
      have hSsplit : S = literals r x 0 ++ serFrom x r ts := by
        rw [hSdef, htoks, serFrom_lit]
        simp
      obtain ⟨b, t, hcons, hb32⟩ := @literals_cons x r 0 (by omega)
      have hS2 : 2 ≤ S.length := by
        rw [hSsplit, List.length_append, literals_length]
        omega
      rw [decompress_eq_decStep S M b (t ++ serFrom x r ts)
        (by rw [hSsplit, hcons]; simp) hb32 hS2]
      have := decode_good S x M toks 0 hgood 0 (by rw [List.drop_zero, hSdef]) hM hS2
      rw [show (x.take 0) = ([] : List Nat) from rfl] at this
      exact this


/-! ## Decoder output only grows; reads succeed under the guards -/

theorem memreadIn_length (x : List Nat) (l : Int) :
    ∀ (n i : Nat) (bs : List Nat), memreadIn x l i n = some bs → bs.length = n := by
  intro n
  induction n with
  | zero =>
    intro i bs h
    simp only [memreadIn, Option.some.injEq] at h
    rw [← h]
    rfl
  | succ m ih =>
    intro i bs h
    simp only [memreadIn] at h
    rcases h1 : readIn x l i with _ | b <;> rw [h1] at h
    · simp at h
    · rcases h2 : memreadIn x l (i + 1) m with _ | u <;> rw [h2] at h
      · simp at h
      · simp only [Option.some.injEq] at h
        rw [← h, List.length_cons, ih (i + 1) u h2]

theorem memreadIn_eq_take (x : List Nat) (l : Int) :
    ∀ (n i : Nat) (bs : List Nat), memreadIn x l i n = some bs →
      bs = (x.drop i).take n := by
  intro n
  induction n with
  | zero =>
    intro i bs h
    simp only [memreadIn, Option.some.injEq] at h
    rw [← h]
    rfl
  | succ m ih =>
    intro i bs h
    simp only [memreadIn] at h
    rcases h1 : readIn x l i with _ | b <;> rw [h1] at h
    · simp at h
    · rcases h2 : memreadIn x l (i + 1) m with _ | u <;> rw [h2] at h
      · simp at h
      · simp only [Option.some.injEq] at h
        unfold readIn at h1
        split at h1
        · have hget := h1
          have hi : i < x.length := (List.get?_eq_some.mp hget).1
          rw [← h, List.drop_eq_getElem_cons hi, List.take_succ_cons]
          have hb : b = x[i] := by
            have := List.get?_eq_some.mp hget
            obtain ⟨h3, h4⟩ := this
            rw [← h4]
            simp [List.get_eq_getElem]
          rw [hb, ih (i + 1) u h2]
        · simp at h1

theorem readIn_isSome (x : List Nat) (l : Int) (i : Nat)
    (h1 : (i : Int) < l) (h2 : l ≤ (x.length : Int)) :
    ∃ b, readIn x l i = some b := by
  have hi : i < x.length := by exact_mod_cast lt_of_lt_of_le h1 h2
  unfold readIn
  rw [if_pos h1]
  exact ⟨x.get ⟨i, hi⟩, List.get?_eq_some.mpr ⟨hi, rfl⟩⟩

theorem memreadIn_isSome (x : List Nat) (l : Int) (h2 : l ≤ (x.length : Int)) :
    ∀ (n i : Nat), (i : Int) + n ≤ l → ∃ bs, memreadIn x l i n = some bs := by
  intro n
  induction n with
  | zero => intro i _; exact ⟨[], rfl⟩
  | succ m ih =>
    intro i hle
    obtain ⟨b, hb⟩ := readIn_isSome x l i (by push_cast at hle ⊢; omega) h2
    obtain ⟨u, hu⟩ := ih (i + 1) (by push_cast at hle ⊢; omega)
    exact ⟨b :: u, by simp [memreadIn, hb, hu]⟩

theorem memreadOut_isSome (out : List Nat) :
    ∀ (n i : Nat), i + n ≤ out.length →
      ∃ bs, memreadOut out i n = some bs ∧ bs.length = n := by
  intro n
  induction n with
  | zero => intro i _; exact ⟨[], rfl, rfl⟩
  | succ m ih =>
    intro i hle
    have hi : i < out.length := by omega
    obtain ⟨bs, hbs, hlen⟩ := ih (i + 1) (by omega)
    refine ⟨out[i] :: bs, ?_, by simp [hlen]⟩
    simp [memreadOut, hbs, List.getElem?_eq_getElem hi]

theorem refCopy_some :
    ∀ (fuel : Nat) (out : List Nat) (n r d : Nat), n ≤ fuel → 1 ≤ d →
      r + d = out.length →
      ∃ o, refCopy out r d fuel n = some o ∧ o.length = out.length + n := by
  intro fuel
  induction fuel with
  | zero =>
    intro out n r d hf _ _
    have : n = 0 := by omega
    subst this
    exact ⟨out, rfl, by omega⟩
  | succ f ih =>
    intro out n r d hf hd hrd
    rcases Nat.eq_zero_or_pos n with h0 | hpos
    · subst h0
      exact ⟨out, by simp [refCopy], by omega⟩
    · obtain ⟨bs, hbs, hblen⟩ := memreadOut_isSome out (min n d) r (by omega)
      have hne : ¬ n = 0 := by omega
      have hdne : ¬ d = 0 := by omega
      obtain ⟨o, ho, holen⟩ := ih (out ++ bs) (n - min n d) (r + min n d) d
        (by omega) hd (by rw [List.length_append, hblen]; omega)
      refine ⟨o, ?_, by rw [holen, List.length_append, hblen]; omega⟩
      simp only [refCopy, if_neg hne, if_neg hdne, hbs, ho]

theorem refCopy_extends (out : List Nat) :
    ∀ (fuel n r d : Nat) (o : List Nat), refCopy out r d fuel n = some o →
      ∃ u, o = out ++ u := by
  intro fuel
  induction fuel generalizing out with
  | zero =>
    intro n r d o h
    simp only [refCopy] at h
    split at h
    · injection h with h'
      exact ⟨[], by rw [← h']; simp⟩
    · simp at h
  | succ f ih =>
    intro n r d o h
    simp only [refCopy] at h
    split at h
    · injection h with h'
      exact ⟨[], by rw [← h']; simp⟩
    · split at h
      · simp at h
      · rcases hbs : memreadOut out r (min n d) with _ | bs <;> rw [hbs] at h
        · simp at h
        · obtain ⟨u, hu⟩ := ih (out ++ bs) (n - min n d) (r + min n d) d o h
          exact ⟨bs ++ u, by rw [hu, List.append_assoc]⟩

theorem decLoopGo_extends (x : List Nat) (l M : Int) :
    ∀ (fuel ip ctrl : Nat) (out out' : List Nat),
      decLoopGo x l M fuel ip ctrl out = DecRes.ok out' →
      ∃ u, out' = out ++ u := by
  intro fuel
  induction fuel with
  | zero =>
    intro ip ctrl out out' h
    simp [decLoopGo] at h
  | succ f ih =>
    intro ip ctrl out out' h
    simp only [decLoopGo] at h
    split at h
    · -- match token
      split at h
      · simp at h
      · split at h
        · simp at h
        · rename_i li heq
          rcases hlow : readIn x l li.2 with _ | low <;> simp only [hlow] at h
          · simp at h
          · split at h
            · simp at h
            · rcases hcopy : refCopy out
                  ((out.length : Int) - ((ctrl % 32) <<< 8) - 1 - low).toNat
                  (out.length -
                    ((out.length : Int) - ((ctrl % 32) <<< 8) - 1 - low).toNat)
                  (li.1 + 3) (li.1 + 3) with _ | o <;> simp only [hcopy] at h
              · simp at h
              · obtain ⟨u1, hu1⟩ := refCopy_extends out _ _ _ _ o hcopy
                split at h
                · have ho : o = out' := by simpa using h
                  rw [← ho]
                  exact ⟨u1, hu1⟩
                · rcases hnext : readIn x l (li.2 + 1) with _ | c <;>
                    simp only [hnext] at h
                  · simp at h
                  · obtain ⟨u2, hu2⟩ := ih _ _ o out' h
                    exact ⟨u1 ++ u2, by rw [hu2, hu1, List.append_assoc]⟩
    · -- literal run
      split at h
      · simp at h
      · rcases hmem : memreadIn x l ip (ctrl + 1) with _ | bs <;>
          simp only [hmem] at h
        · simp at h
        · split at h
          · have ho : out ++ bs = out' := by simpa using h
            exact ⟨bs, ho.symm⟩
          · rcases hnext : readIn x l (ip + (ctrl + 1)) with _ | c <;>
              simp only [hnext] at h
            · simp at h
            · obtain ⟨u2, hu2⟩ := ih _ _ (out ++ bs) out' h
              exact ⟨bs ++ u2, by rw [hu2, List.append_assoc]⟩

theorem C1_round_trip_witness :
    lz77_decompress
        (lz77_compress (List.replicate 20 65) ((List.replicate 20 65).length : Int)
          (fun _ => 0))
        ((lz77_compress (List.replicate 20 65) ((List.replicate 20 65).length : Int)
          (fun _ => 0)).length : Int) 20 =
      if (List.replicate 20 65 : List Nat) = [] then DecRes.fail
      else DecRes.ok (List.replicate 20 65) :=
  C1_round_trip (List.replicate 20 65) (fun _ => 0) 20 (by decide) (by decide)
    (by decide)

/-! ## Decoder safety: no access outside the modelled buffers, and the
output capacity is respected -/

theorem decLoopGo_safe (x : List Nat) (l M : Int) (hxl : l ≤ (x.length : Int))
    (hl1 : 1 ≤ l) :
    ∀ (fuel ip ctrl : Nat) (out : List Nat), 1 ≤ ip →
      (ip : Int) ≤ ipBound l + 1 → (32 ≤ ctrl → (ip : Int) < l) →
      l.toNat < ip + 2 * fuel →
      decLoopGo x l M fuel ip ctrl out ≠ DecRes.ub ∧
        (∀ out', decLoopGo x l M fuel ip ctrl out = DecRes.ok out' →
          (out'.length : Int) ≤ M) := by
  intro fuel
  induction fuel with
  | zero =>
    intro ip ctrl out hip1 hip hctrl hfuel
    exfalso
    unfold ipBound at hip
    split at hip <;> omega
  | succ f ih =>
    intro ip ctrl out hip1 hip hctrl hfuel
    simp only [decLoopGo]
    split
    · -- match token
      rename_i h32
      have hipl : (ip : Int) < l := hctrl h32
      split
      · exact ⟨by simp, by simp⟩
      · rename_i hng
        split
        · -- the extension-byte read cannot fail
          rename_i heq
          exfalso
          split at heq
          · rename_i h6
            have hipb : (ip : Int) ≤ ipBound l := by
              rcases not_and_or.mp hng with h | h
              · exact absurd h6 h
              · omega
            obtain ⟨b, hb⟩ := readIn_isSome x l ip hipl hxl
            rw [hb] at heq
            simp at heq
          · simp at heq
        · rename_i li heq
          have hli : (ip ≤ li.2 ∧ li.2 ≤ ip + 1) ∧ (li.2 : Int) < l := by
            split at heq
            · rename_i h6
              have hipb : (ip : Int) ≤ ipBound l := by
                rcases not_and_or.mp hng with h | h
                · exact absurd h6 h
                · omega
              rcases hb : readIn x l ip with _ | b <;> rw [hb] at heq
              · simp at heq
              · simp at heq
                have h2 : li.2 = ip + 1 := by
                  rw [← heq]
                have hl2 : 2 ≤ l := by
                  unfold ipBound at hipb
                  split at hipb <;> omega
                constructor
                · omega
                · unfold ipBound at hipb
                  split at hipb <;> push_cast <;> omega
            · simp at heq
              have h2 : li.2 = ip := by rw [← heq]
              constructor
              · omega
              · omega
          split
          · -- the distance-byte read cannot fail
            rename_i hlowna
            exfalso
            obtain ⟨b, hb⟩ := readIn_isSome x l li.2 hli.2 hxl
            rw [hb] at hlowna
            simp at hlowna
          · rename_i low hlow
            split
            · exact ⟨by simp, by simp⟩
            · rename_i hcap
              push_neg at hcap
              obtain ⟨hcapM, href0⟩ := hcap
              split
              · -- the backward copy cannot fail
                rename_i hcna
                exfalso
                have hrefle : ((out.length : Int) - ((ctrl % 32) <<< 8) - 1 - low).toNat
                    + (out.length -
                      ((out.length : Int) - ((ctrl % 32) <<< 8) - 1 - low).toNat)
                    = out.length := by
                  omega
                obtain ⟨o, ho, _⟩ := refCopy_some (li.1 + 3) out (li.1 + 3)
                  (((out.length : Int) - ((ctrl % 32) <<< 8) - 1 - low).toNat)
                  (out.length -
                    ((out.length : Int) - ((ctrl % 32) <<< 8) - 1 - low).toNat)
                  le_rfl (by omega) hrefle
                rw [ho] at hcna
                simp at hcna
              · rename_i o hcopy
                have holen : o.length = out.length + (li.1 + 3) := by
                  have hrefle : ((out.length : Int) - ((ctrl % 32) <<< 8) - 1 - low).toNat
                      + (out.length -
                        ((out.length : Int) - ((ctrl % 32) <<< 8) - 1 - low).toNat)
                      = out.length := by
                    omega
                  obtain ⟨o2, ho2, holen2⟩ := refCopy_some (li.1 + 3) out (li.1 + 3)
                    (((out.length : Int) - ((ctrl % 32) <<< 8) - 1 - low).toNat)
                    (out.length -
                      ((out.length : Int) - ((ctrl % 32) <<< 8) - 1 - low).toNat)
                    le_rfl (by omega) hrefle
                  rw [hcopy] at ho2
                  injection ho2 with ho2'
                  rw [ho2']
                  exact holen2
                split
                · refine ⟨by simp, ?_⟩
                  intro out' hout'
                  have : o = out' := by simpa using hout'
                  rw [← this, holen]
                  push_cast
                  omega
                · rename_i hnb
                  push_neg at hnb
                  have hl2 : 2 ≤ l := by
                    unfold ipBound at hnb
                    split at hnb <;> omega
                  have hipb2 : (li.2 + 1 : Int) ≤ l - 2 := by
                    unfold ipBound at hnb
                    split at hnb <;> push_cast at hnb ⊢ <;> omega
                  split
                  · rename_i hnna
                    exfalso
                    obtain ⟨b, hb⟩ := readIn_isSome x l (li.2 + 1)
                      (by push_cast at hipb2 ⊢; omega) hxl
                    rw [hb] at hnna
                    simp at hnna
                  · rename_i c hc
                    exact ih (li.2 + 1 + 1) c o (by omega)
                      (by
                        unfold ipBound
                        rw [if_pos (by omega)]
                        push_cast at hipb2 ⊢
                        omega)
                      (by intro _; push_cast at hipb2 ⊢; omega)
                      (by push_cast at hipb2 ⊢; omega)
    · -- literal run
      rename_i h32
      split
      · exact ⟨by simp, by simp⟩
      · rename_i hok
        push_neg at hok
        obtain ⟨hcapM, hinp⟩ := hok
        split
        · rename_i hmna
          exfalso
          obtain ⟨bs, hbs⟩ := memreadIn_isSome x l hxl (ctrl + 1) ip
            (by push_cast at hinp ⊢; omega)
          rw [hbs] at hmna
          simp at hmna
        · rename_i bs hmem
          have hbslen : bs.length = ctrl + 1 := memreadIn_length x l (ctrl + 1) ip bs hmem
          split
          · refine ⟨by simp, ?_⟩
            intro out' hout'
            have : out ++ bs = out' := by simpa using hout'
            rw [← this, List.length_append, hbslen]
            push_cast at hcapM ⊢
            omega
          · rename_i hnb
            push_neg at hnb
            have hl2 : 2 ≤ l := by
              unfold ipBound at hnb
              split at hnb <;> omega
            have hipb2 : (ip + (ctrl + 1) : Int) ≤ l - 2 := by
              unfold ipBound at hnb
              split at hnb <;> push_cast at hnb ⊢ <;> omega
            split
            · rename_i hnna
              exfalso
              obtain ⟨b, hb⟩ := readIn_isSome x l (ip + (ctrl + 1))
                (by push_cast at hipb2 ⊢; omega) hxl
              rw [hb] at hnna
              simp at hnna
            · rename_i c hc
              exact ih (ip + (ctrl + 1) + 1) c (out ++ bs) (by omega)
                (by
                  unfold ipBound
                  rw [if_pos (by omega)]
                  push_cast at hipb2 ⊢
                  omega)
                (by intro _; push_cast at hipb2 ⊢; omega)
                (by push_cast at hipb2 ⊢; omega)

/-- **C2** — Decoder safety: for every input byte sequence (of at least the
declared length), every declared input length and every output capacity
`max_out`, the shallow embedding of `lz77_decompress` never reaches an
out-of-bounds access (result `DecRes.ub`, which models any read past the
declared input length, any write past `max_out`, and any back-reference
before the output origin), and whenever it succeeds the output length is at
most `max_out`: the bounds-violating branches are exactly the branches
returning failure. -/
theorem C2_decoder_safety (x : List Nat) (l M : Int) (hxl : l ≤ (x.length : Int)) :
    lz77_decompress x l M ≠ DecRes.ub ∧
      (∀ out, lz77_decompress x l M = DecRes.ok out → (out.length : Int) ≤ M) := by
  unfold lz77_decompress
  split
  · exact ⟨by simp, by simp⟩
  · rename_i hl0
    push_neg at hl0
    obtain ⟨b, hb⟩ := readIn_isSome x l 0 (by push_cast; omega) hxl
    rw [hb]
    exact decLoopGo_safe x l M hxl (by omega) l.toNat 1 (b % 32) []
      le_rfl
      (by unfold ipBound; split <;> push_cast <;> omega)
      (by intro h; exact absurd h (by have := @Nat.mod_lt b 32 (by omega); omega))
      (by omega)

theorem C2_decoder_safety_witness :
    lz77_decompress [1, 65, 66] 3 10 ≠ DecRes.ub ∧
      (∀ out, lz77_decompress [1, 65, 66] 3 10 = DecRes.ok out →
        (out.length : Int) ≤ 10) :=
  C2_decoder_safety [1, 65, 66] 3 10 (by decide)

/-! ## Capacity monotonicity of the decoder loop -/

theorem decLoopGo_capacity (x : List Nat) (l N : Int) :
    ∀ (fuel ip ctrl : Nat) (out out' : List Nat),
      decLoopGo x l N fuel ip ctrl out = DecRes.ok out' →
      ∀ M : Int, decLoopGo x l M fuel ip ctrl out =
        (if (out'.length : Int) ≤ M then DecRes.ok out' else DecRes.fail) := by
  intro fuel
  induction fuel with
  | zero =>
    intro ip ctrl out out' h
    simp [decLoopGo] at h
  | succ f ih =>
    intro ip ctrl out out' h M
    simp only [decLoopGo] at h ⊢
    split at h
    · -- match token
      rename_i h32
      rw [if_pos h32]
      split at h
      · simp at h
      · rename_i hng
        rw [if_neg hng]
        split at h
        · simp at h
        · rename_i li heq
          split at h
          · simp at h
          · rename_i low hlow
            split at h
            · simp at h
            · rename_i hcapN
              push_neg at hcapN
              obtain ⟨hcapN1, href0⟩ := hcapN
              split at h
              · simp at h
              · rename_i o hcopy
                have holen : o.length = out.length + (li.1 + 3) := by
                  have hrefle : ((out.length : Int) - ((ctrl % 32) <<< 8) - 1 - low).toNat
                      + (out.length -
                        ((out.length : Int) - ((ctrl % 32) <<< 8) - 1 - low).toNat)
                      = out.length := by
                    omega
                  obtain ⟨o2, ho2, holen2⟩ := refCopy_some (li.1 + 3) out (li.1 + 3)
                    (((out.length : Int) - ((ctrl % 32) <<< 8) - 1 - low).toNat)
                    (out.length -
                      ((out.length : Int) - ((ctrl % 32) <<< 8) - 1 - low).toNat)
                    le_rfl (by omega) hrefle
                  rw [hcopy] at ho2
                  injection ho2 with ho2'
                  rw [ho2']
                  exact holen2
                split at h
                · rename_i hbrk
                  injection h with h'
                  subst h'
                  by_cases hM : (out.length : Int) + ((li.1 + 3 : Nat) : Int) > M
                  · rw [if_pos (Or.inl hM), if_neg (by push_cast; omega)]
                  · rw [if_neg (by push_neg; exact ⟨by omega, href0⟩),
                      if_pos hbrk, if_pos (by push_cast; omega)]
                · rename_i hbrk
                  split at h
                  · simp at h
                  · rename_i c hc
                    obtain ⟨u, hu⟩ := decLoopGo_extends x l N f (li.2 + 1 + 1) c o out' h
                    have hlenout' : o.length ≤ out'.length := by
                      rw [hu]; simp
                    by_cases hM : (out.length : Int) + ((li.1 + 3 : Nat) : Int) > M
                    · rw [if_pos (Or.inl hM),
                        if_neg (by push_cast at hlenout' ⊢; omega)]
                    · rw [if_neg (by push_neg; exact ⟨by omega, href0⟩),
                        if_neg hbrk]
                      exact ih (li.2 + 1 + 1) c o out' h M
    · -- literal run
      rename_i h32
      rw [if_neg h32]
      split at h
      · simp at h
      · rename_i hokN
        push_neg at hokN
        obtain ⟨hcapN1, hinpN⟩ := hokN
        split at h
        · simp at h
        · rename_i bs hmem
          have hbslen : bs.length = ctrl + 1 := memreadIn_length x l (ctrl + 1) ip bs hmem
          split at h
          · rename_i hbrk
            injection h with h'
            subst h'
            by_cases hM : (out.length : Int) + ((ctrl + 1 : Nat) : Int) > M
            · rw [if_pos (Or.inl hM),
                if_neg (by simp only [List.length_append, hbslen]; push_cast; omega)]
            · rw [if_neg (by push_neg; exact ⟨by omega, hinpN⟩),
                if_pos hbrk,
                if_pos (by simp only [List.length_append, hbslen]; push_cast; omega)]
          · rename_i hbrk
            split at h
            · simp at h
            · rename_i c hc
              obtain ⟨u, hu⟩ := decLoopGo_extends x l N f (ip + (ctrl + 1) + 1) c
                (out ++ bs) out' h
              have hlenout' : out.length + (ctrl + 1) ≤ out'.length := by
                rw [hu]
                simp [hbslen]
              by_cases hM : (out.length : Int) + ((ctrl + 1 : Nat) : Int) > M
              · rw [if_pos (Or.inl hM), if_neg (by push_cast at hlenout' ⊢; omega)]
              · rw [if_neg (by push_neg; exact ⟨by omega, hinpN⟩),
                  if_neg hbrk]
                exact ih (ip + (ctrl + 1) + 1) c (out ++ bs) out' h M

/-- **C3** — Monotonic capacity: if `lz77_decompress` succeeds with output `r`
under some capacity `N`, then under any capacity `M ≥ length r` it succeeds
with exactly the same output, and under any capacity `M < length r` it fails
rather than truncating. -/
theorem C3_capacity_monotonic (x : List Nat) (l N : Int) (r : List Nat)
    (h : lz77_decompress x l N = DecRes.ok r) :
    ∀ M : Int, ((r.length : Int) ≤ M → lz77_decompress x l M = DecRes.ok r) ∧
      (M < (r.length : Int) → lz77_decompress x l M = DecRes.fail) := by
  have hl0 : ¬l ≤ 0 := by
    intro hle
    unfold lz77_decompress at h
    rw [if_pos hle] at h
    simp at h
  unfold lz77_decompress at h ⊢
  rw [if_neg hl0] at h
  rcases hbm : readIn x l 0 with _ | b <;> rw [hbm] at h
  · simp at h
  · have hcap := decLoopGo_capacity x l N l.toNat 1 (b % 32) [] r h
    intro M
    constructor
    · intro hM
      simp only [if_neg hl0, hbm]
      rw [hcap M, if_pos hM]
    · intro hM
      simp only [if_neg hl0, hbm]
      rw [hcap M, if_neg (by omega)]

theorem C3_capacity_monotonic_witness :
    lz77_decompress [1, 65, 66] 3 5 = DecRes.ok [65, 66] ∧
      lz77_decompress [1, 65, 66] 3 2 = DecRes.ok [65, 66] ∧
      lz77_decompress [1, 65, 66] 3 1 = DecRes.fail := by
  refine ⟨by decide, ?_, ?_⟩
  · exact ((C3_capacity_monotonic [1, 65, 66] 3 5 [65, 66] (by decide)) 2).1 (by decide)
  · exact ((C3_capacity_monotonic [1, 65, 66] 3 5 [65, 66] (by decide)) 1).2 (by decide)

/-! ## The decoder never reads input position 0 after the first control
byte: congruence in the head byte -/

theorem readIn_cons (b b' : Nat) (rest : List Nat) (l : Int) (i : Nat)
    (hi : 1 ≤ i) : readIn (b :: rest) l i = readIn (b' :: rest) l i := by
  unfold readIn
  cases i with
  | zero => omega
  | succ j => rfl

theorem memreadIn_cons (b b' : Nat) (rest : List Nat) (l : Int) :
    ∀ (n i : Nat), 1 ≤ i →
      memreadIn (b :: rest) l i n = memreadIn (b' :: rest) l i n := by
  intro n
  induction n with
  | zero => intro i _; rfl
  | succ m ih =>
    intro i hi
    simp only [memreadIn, readIn_cons b b' rest l i hi, ih (i + 1) (by omega)]

theorem decLoopGo_cons (b b' : Nat) (rest : List Nat) (l M : Int) :
    ∀ (fuel ip ctrl : Nat) (out : List Nat), 1 ≤ ip →
      decLoopGo (b :: rest) l M fuel ip ctrl out =
        decLoopGo (b' :: rest) l M fuel ip ctrl out := by
  intro fuel
  induction fuel with
  | zero => intro ip ctrl out _; rfl
  | succ f ih =>
    intro ip ctrl out hip
    simp only [decLoopGo]
    split
    · -- match token
      split
      · rfl
      · rw [readIn_cons b b' rest l ip hip]
        split
        · rfl
        · rename_i li heq
          have hli : 1 ≤ li.2 := by
            split at heq
            · rcases hr : readIn (b' :: rest) l ip with _ | v <;> rw [hr] at heq
              · simp at heq
              · simp at heq
                have : li.2 = ip + 1 := by rw [← heq]
                omega
            · simp at heq
              have : li.2 = ip := by rw [← heq]
              omega
          rw [readIn_cons b b' rest l li.2 hli]
          split
          · rfl
          · split
            · rfl
            · split
              · rfl
              · split
                · rfl
                · rw [readIn_cons b b' rest l (li.2 + 1) (by omega)]
                  split
                  · rfl
                  · exact ih (li.2 + 1 + 1) _ _ (by omega)
    · -- literal run
      split
      · rfl
      · rw [memreadIn_cons b b' rest l (ctrl + 1) ip hip]
        split
        · rfl
        · split
          · rfl
          · rw [readIn_cons b b' rest l (ip + (ctrl + 1)) (by omega)]
            split
            · rfl
            · exact ih (ip + (ctrl + 1) + 1) _ _ (by omega)

/-- **C7** — First-byte masking: the decoder's result only depends on the
first control byte through its low 5 bits (masking the high 3 bits of the
first byte never changes the result); when decoding succeeds the output
begins with the `(first byte mod 32) + 1` literal bytes that follow the
first control byte; and subsequent control bytes are interpreted unmasked
(two streams differing only in the high bits of a later control byte can
decode differently). -/
theorem C7_first_byte_masked :
    (∀ (b : Nat) (rest : List Nat) (l M : Int),
        lz77_decompress (b :: rest) l M = lz77_decompress (b % 32 :: rest) l M) ∧
      (∀ (b : Nat) (rest : List Nat) (l M : Int) (out : List Nat), 1 ≤ l →
        lz77_decompress (b :: rest) l M = DecRes.ok out →
        out.take (b % 32 + 1) = rest.take (b % 32 + 1)) ∧
      lz77_decompress [0, 65, 32, 66] 4 10 ≠ lz77_decompress [0, 65, 0, 66] 4 10 := by
  refine ⟨?_, ?_, by decide⟩
  · intro b rest l M
    unfold lz77_decompress
    by_cases hl : l ≤ 0
    · rw [if_pos hl, if_pos hl]
    · rw [if_neg hl, if_neg hl]
      have h0 : readIn (b :: rest) l 0 = some b := by
        unfold readIn
        rw [if_pos (by push_cast; omega)]
        rfl
      have h0' : readIn (b % 32 :: rest) l 0 = some (b % 32) := by
        unfold readIn
        rw [if_pos (by push_cast; omega)]
        rfl
      simp only [h0, h0']
      have hmm : b % 32 % 32 = b % 32 := by omega
      rw [hmm]
      exact decLoopGo_cons b (b % 32) rest l M l.toNat 1 (b % 32) [] le_rfl
  · intro b rest l M out hl h
    unfold lz77_decompress at h
    rw [if_neg (by omega)] at h
    have h0 : readIn (b :: rest) l 0 = some b := by
      unfold readIn
      rw [if_pos (by push_cast; omega)]
      rfl
    rw [h0] at h
    obtain ⟨f, hf⟩ : ∃ f, l.toNat = f + 1 := ⟨l.toNat - 1, by omega⟩
    rw [hf] at h
    simp only [decLoopGo] at h
    rw [if_neg (by have := @Nat.mod_lt b 32 (by omega); omega)] at h
    split at h
    · simp at h
    · split at h
      · simp at h
      · rename_i bs hmem
        have hbslen : bs.length = b % 32 + 1 :=
          memreadIn_length _ _ _ _ _ hmem
        have hbs : bs = rest.take (b % 32 + 1) := by
          have := memreadIn_eq_take _ _ _ _ _ hmem
          simpa using this
        split at h
        · injection h with h'
          rw [← h']
          simp only [List.nil_append]
          rw [hbs, List.take_take]
          simp
        · split at h
          · simp at h
          · rename_i c hc
            obtain ⟨u, hu⟩ := decLoopGo_extends _ _ _ _ _ _ _ _ h
            rw [hu]
            simp only [List.nil_append]
            rw [List.take_append_of_le_length (by omega), hbs, List.take_take]
            simp

theorem C7_first_byte_masked_witness :
    lz77_decompress (33 :: [65, 66]) 3 10 =
        lz77_decompress (33 % 32 :: [65, 66]) 3 10 ∧
      List.take (1 % 32 + 1) [65, 66] = List.take (1 % 32 + 1) ([65, 66] : List Nat) :=
  ⟨C7_first_byte_masked.1 33 [65, 66] 3 10,
    C7_first_byte_masked.2.1 1 [65, 66] 3 10 [65, 66] (by norm_num) (by decide)⟩

/-- **C8** — Non-positive length rejection: for every non-positive input
length, `lz77_compress` returns the empty output (return value 0, no byte
written) and `lz77_decompress` fails immediately, for every input buffer,
workspace and output capacity; in particular this covers the empty input. -/
theorem C8_nonpositive_rejected (x : List Nat) (l : Int) (w : Nat → Nat)
    (M : Int) (hl : l ≤ 0) :
    lz77_compress x l w = [] ∧ lz77_decompress x l M = DecRes.fail := by
  constructor
  · unfold lz77_compress
    rw [if_pos hl]
  · unfold lz77_decompress
    rw [if_pos hl]

theorem C8_nonpositive_rejected_witness :
    lz77_compress [] 0 (fun _ => 0) = [] ∧
      lz77_decompress [] 0 7 = DecRes.fail :=
  C8_nonpositive_rejected [] 0 (fun _ => 0) 7 (by decide)

/-! ## Workspace noninterference: the compressor reads the hash table only
at indices below 8192 (the hashes), all of which are zeroed on entry -/

def eqBelow (h1 h2 : Nat → Nat) : Prop := ∀ i < 8192, h1 i = h2 i

theorem upd_eqBelow {h1 h2 : Nat → Nat} (hE : eqBelow h1 h2) (i v : Nat) :
    eqBelow (upd h1 i v) (upd h2 i v) := by
  intro j hj
  unfold upd
  split
  · rfl
  · exact hE j hj

theorem findMatchGo_congr (x : List Nat) (limit : Nat) :
    ∀ (fuel ip : Nat) (h1 h2 : Nat → Nat), eqBelow h1 h2 →
      (findMatchGo x limit fuel ip h1).2 = (findMatchGo x limit fuel ip h2).2 ∧
        eqBelow (findMatchGo x limit fuel ip h1).1
          (findMatchGo x limit fuel ip h2).1 := by
  intro fuel
  induction fuel with
  | zero => intro ip h1 h2 hE; exact ⟨rfl, hE⟩
  | succ f ih =>
    intro ip h1 h2 hE
    simp only [findMatchGo]
    have href : h1 (lz77_hash (seq3 x ip)) = h2 (lz77_hash (seq3 x ip)) :=
      hE _ (lz77_hash_lt _)
    rw [href]
    split_ifs <;>
      first
        | exact ⟨rfl, upd_eqBelow hE _ _⟩
        | exact ih (ip + 1) _ _ (upd_eqBelow hE _ _)

theorem lazyCand_congr (x : List Nat) (L : Nat) (h1 h2 : Nat → Nat)
    (hE : eqBelow h1 h2) (pos bestLen : Nat) :
    lazyCand x L h1 pos bestLen = lazyCand x L h2 pos bestLen := by
  simp only [lazyCand]
  rw [hE (lz77_hash (seq3 x pos)) (lz77_hash_lt _)]

theorem advance_congr (x : List Nat) (L len2 p : Nat) (h1 h2 : Nat → Nat)
    (hE : eqBelow h1 h2) :
    (advance x L len2 p h1).1 = (advance x L len2 p h2).1 ∧
      eqBelow (advance x L len2 p h1).2 (advance x L len2 p h2).2 := by
  simp only [advance]
  refine ⟨by trivial, ?_⟩
  split_ifs <;>
    first
      | exact hE
      | exact upd_eqBelow hE _ _
      | exact upd_eqBelow (upd_eqBelow hE _ _) _ _
      | exact upd_eqBelow (upd_eqBelow (upd_eqBelow hE _ _) _ _) _ _

theorem step_congr (x : List Nat) (L c ref d : Nat) (h1 h2 : Nat → Nat)
    (hE : eqBelow h1 h2) :
    (step x L c ref d h1).1 = (step x L c ref d h2).1 ∧
      (step x L c ref d h1).2.1 = (step x L c ref d h2).2.1 ∧
        eqBelow (step x L c ref d h1).2.2 (step x L c ref d h2).2.2 := by
  simp only [step, lazyCand_congr x L h1 h2 hE]
  refine ⟨by trivial, ?_, ?_⟩
  · exact (advance_congr x L _ _ h1 h2 hE).1
  · exact (advance_congr x L _ _ h1 h2 hE).2

theorem mainLoopGo_congr (x : List Nat) (L : Nat) :
    ∀ (fuel ip anchor : Nat) (h1 h2 : Nat → Nat), eqBelow h1 h2 →
      mainLoopGo x L fuel ip anchor h1 = mainLoopGo x L fuel ip anchor h2 := by
  intro fuel
  induction fuel with
  | zero => intro ip anchor h1 h2 _; rfl
  | succ f ih =>
    intro ip anchor h1 h2 hE
    simp only [mainLoopGo]
    by_cases hip : ip < L - 13
    · rw [if_pos hip, if_pos hip]
      unfold findMatch
      obtain ⟨hres, hEb⟩ := findMatchGo_congr x (L - 13) (L - 13 + 1 - ip) ip h1 h2 hE
      rcases hm1 : findMatchGo x (L - 13) (L - 13 + 1 - ip) ip h1 with ⟨ht1, r1⟩
      rcases hm2 : findMatchGo x (L - 13) (L - 13 + 1 - ip) ip h2 with ⟨ht2, r2⟩
      rw [hm1, hm2] at hres hEb
      dsimp only at hres hEb
      subst hres
      rcases r1 with _ | ⟨c, ref, dis⟩
      · rfl
      · obtain ⟨hs1, hs2, hs3⟩ := step_congr x L c ref dis ht1 ht2 hEb
        dsimp only
        rw [hs1, hs2, ih ((step x L c ref dis ht2).2.1)
          ((step x L c ref dis ht2).2.1) ((step x L c ref dis ht1).2.2)
          ((step x L c ref dis ht2).2.2) hs3]
    · rw [if_neg hip, if_neg hip]

/-- **C9** — Workspace noninterference: for every input buffer and length
and any two contents of the workspace, `lz77_compress` produces identical
output bytes (hence an identical return value): the compressed result is a
function of the input alone, independent of what a previous call or the
caller left in the workspace. -/
theorem C9_workspace_noninterference (x : List Nat) (l : Int)
    (w1 w2 : Nat → Nat) : lz77_compress x l w1 = lz77_compress x l w2 := by
  unfold lz77_compress
  by_cases h0 : l ≤ 0
  · rw [if_pos h0, if_pos h0]
  · rw [if_neg h0, if_neg h0]
    by_cases h13 : l < 13
    · rw [if_pos h13, if_pos h13]
    · rw [if_neg h13, if_neg h13]
      exact mainLoopGo_congr x l.toNat l.toNat 2 0 _ _
        (fun i hi => by simp only [if_pos hi])

/-- **C6** — Literal lead-in: for every input of positive length the first
token `lz77_compress` emits is a literal run (at token level the emitted
stream serialises a token list headed by `Tok.lit r` with `r ≥ 1`, and on
the full compression path `length ≥ 13` the run covers at least the first
2 bytes, `r ≥ 2`); at byte level the first output byte is a literal-run
control byte (`< 32`), never a match control byte. -/
theorem C6_literal_lead_in (x : List Nat) (l : Int) (w : Nat → Nat)
    (hby : ByteOk x) (hxl : x.length = l.toNat) (h1 : 1 ≤ l)
    (hlt : l < 4294967296) :
    (∃ r ts, lz77_compress x l w = serFrom x 0 (Tok.lit r :: ts) ∧
        1 ≤ r ∧ (13 ≤ l → 2 ≤ r)) ∧
      ∃ b t, lz77_compress x l w = b :: t ∧ b < 32 := by
  unfold lz77_compress
  rw [if_neg (by omega)]
  by_cases h13 : l < 13
  · rw [if_pos h13]
    constructor
    · refine ⟨l.toNat, [], ?_, by omega, by omega⟩
      rw [serFrom_lit, serFrom_nil, List.append_nil]
    · obtain ⟨b, t, hbt, hb32⟩ := @literals_cons x l.toNat 0 (by omega)
      exact ⟨b, t, hbt, hb32⟩
  · rw [if_neg h13]
    obtain ⟨toks, hgood, heq, hhead⟩ := mainLoopGo_good x l.toNat hby
      (by omega) (by omega) hxl l.toNat 2 0
      (fun i => if i < 8192 then 0 else w i)
      (by omega) (by omega)
      (fun h hh => by
        show (if h < 8192 then 0 else w h) < 2
        rw [if_pos hh]
        omega) (by omega)
    obtain ⟨r, ts, htoks, hr⟩ := hhead (by omega)
    rw [htoks] at heq
    constructor
    · exact ⟨r, ts, heq, by omega, fun _ => by omega⟩
    · rw [heq, serFrom_lit]
      obtain ⟨b, t, hbt, hb32⟩ := @literals_cons x r 0 (by omega)
      exact ⟨b, t ++ serFrom x (0 + r) ts, by rw [hbt]; rfl, hb32⟩

theorem C6_literal_lead_in_witness :
    ((∃ r ts, lz77_compress (List.replicate 20 65) 20 (fun _ => 0) =
        serFrom (List.replicate 20 65) 0 (Tok.lit r :: ts) ∧
        1 ≤ r ∧ ((13 : Int) ≤ 20 → 2 ≤ r)) ∧
      ∃ b t, lz77_compress (List.replicate 20 65) 20 (fun _ => 0) = b :: t ∧
        b < 32) :=
  C6_literal_lead_in (List.replicate 20 65) 20 (fun _ => 0)
    (byteOk_of_mem (by decide)) (by decide) (by decide) (by decide)

/-! ## The wire format's maximal distance 8192 is accepted by the decoder -/

theorem decoder_accepts_8192 (a b c : Nat) (rest : List Nat) (M : Int)
    (hlen : rest.length = 8189) (hM : 8195 ≤ M) :
    decLoopGo [0, 255] 2 M 1 1 63 (a :: b :: c :: rest) =
      DecRes.ok ((a :: b :: c :: rest) ++ [a, b, c]) := by
  have holen : (a :: b :: c :: rest).length = 8192 := by simp [hlen]
  have h63 : (63 : Nat) >>> 5 - 1 = 0 := by decide
  have hofs : ((63 : Nat) % 32) <<< 8 = 7936 := by decide
  have hread : readIn [0, 255] 2 1 = some 255 := by decide
  simp only [decLoopGo, h63, hofs, hread, holen]
  rw [if_pos (by norm_num : (32 : Nat) ≤ 63)]
  norm_num [ipBound]
  simp only [hread]
  rw [if_neg (by omega)]
  have hcopy : refCopy (a :: b :: c :: rest) (Int.toNat 255 - 255)
      (8192 - (Int.toNat 255 - 255)) 3 3 =
      some ((a :: b :: c :: rest) ++ [a, b, c]) := by rfl
  rw [hcopy]
  simp

theorem Good_mat_dist {x : List Nat} {a : Nat} {toks : List Tok}
    (h : Good x a toks) :
    ∀ len dist, Tok.mat len dist ∈ toks → 1 ≤ dist ∧ dist ≤ 8191 := by
  induction h with
  | nil => intro len dist hm; simp at hm
  | lit hr hle h ih =>
    intro len dist hm
    rcases List.mem_cons.mp hm with he | ht
    · exact absurd he (by simp)
    · exact ih len dist ht
  | mat hlen hd1 hd hda hle hcontent h ih =>
    intro len dist hm
    rcases List.mem_cons.mp hm with he | ht
    · cases he
      exact ⟨hd1, hd⟩
    · exact ih len dist ht

/-- **C10** — Emitted-distance ceiling: the token stream emitted by
`lz77_compress` only contains match tokens with backward distance between 1
and 8191 (the match finder accepts a candidate only when its distance is
strictly below 8192), while the decoder does accept the wire format's
maximal distance 8192 (a match token with offset bits 31 and low byte 255
against 8192 bytes of prior output copies from the output origin). -/
theorem C10_distance_ceiling :
    (∀ (x : List Nat) (l : Int) (w : Nat → Nat), ByteOk x →
        x.length = l.toNat → 1 ≤ l → l < 4294967296 →
        ∃ toks, lz77_compress x l w = serFrom x 0 toks ∧ Good x 0 toks ∧
          ∀ len dist, Tok.mat len dist ∈ toks → 1 ≤ dist ∧ dist ≤ 8191) ∧
      ∀ (a b c : Nat) (rest : List Nat) (M : Int), rest.length = 8189 →
        8195 ≤ M →
        decLoopGo [0, 255] 2 M 1 1 63 (a :: b :: c :: rest) =
          DecRes.ok ((a :: b :: c :: rest) ++ [a, b, c]) := by
  refine ⟨?_, decoder_accepts_8192⟩
  intro x l w hby hxl h1 hlt
  unfold lz77_compress
  rw [if_neg (by omega)]
  by_cases h13 : l < 13
  · rw [if_pos h13]
    refine ⟨[Tok.lit l.toNat], ?_, ?_, ?_⟩
    · rw [serFrom_lit, serFrom_nil, List.append_nil]
    · exact Good.lit (by omega) (by omega)
        (by rw [show (0 + l.toNat) = x.length by omega]; exact Good.nil)
    · intro len dist hm
      simp at hm
  · rw [if_neg h13]
    obtain ⟨toks, hgood, heq, _⟩ := mainLoopGo_good x l.toNat hby
      (by omega) (by omega) hxl l.toNat 2 0
      (fun i => if i < 8192 then 0 else w i)
      (by omega) (by omega)
      (fun h hh => by
        show (if h < 8192 then 0 else w h) < 2
        rw [if_pos hh]
        omega) (by omega)
    exact ⟨toks, heq, hgood, Good_mat_dist hgood⟩

theorem C10_distance_ceiling_witness :
    (∃ toks, lz77_compress (List.replicate 20 65) 20 (fun _ => 0) =
        serFrom (List.replicate 20 65) 0 toks ∧
        Good (List.replicate 20 65) 0 toks ∧
        ∀ len dist, Tok.mat len dist ∈ toks → 1 ≤ dist ∧ dist ≤ 8191) ∧
      decLoopGo [0, 255] 2 8195 1 1 63 (7 :: 8 :: 9 :: List.replicate 8189 0) =
        DecRes.ok ((7 :: 8 :: 9 :: List.replicate 8189 0) ++ [7, 8, 9]) :=
  ⟨C10_distance_ceiling.1 (List.replicate 20 65) 20 (fun _ => 0)
      (byteOk_of_mem (by decide)) (by decide) (by decide) (by decide),
    C10_distance_ceiling.2 7 8 9 (List.replicate 8189 0) 8195
      (by rw [List.length_replicate]) (by norm_num)⟩

/-! ## Splitting of long matches into chunks -/

theorem parseMatchToks_nil : ∀ g, parseMatchToks g [] = some [] := by
  intro g
  cases g with
  | zero => simp [parseMatchToks]
  | succ g => rfl

theorem parse_matchGo (d : Nat) (hd : d < 8192) :
    ∀ len, 1 ≤ len → ∀ gas, (matchGo d (len + 1) len).length ≤ gas →
      ∃ k rem, len = 262 * k + rem ∧ 1 ≤ rem ∧ rem ≤ 262 ∧
        parseMatchToks gas (matchGo d (len + 1) len) =
          some (List.replicate k (262, d + 1) ++ [(rem + 2, d + 1)]) := by
  intro len
  induction len using Nat.strong_induction_on with
  | _ len ih =>
    intro hlen gas hgas
    have hsh : d >>> 8 = d / 256 := shr8_eq d
    have hd32 : d / 256 < 32 := by omega
    rw [match'_unfold] at hgas ⊢
    by_cases h262 : 262 < len
    · rw [if_pos h262] at hgas ⊢
      have hc0 : (224 + d >>> 8) % 256 = 224 + d / 256 := by
        rw [hsh]
        omega
      rw [hc0] at hgas ⊢
      simp only [List.length_cons] at hgas
      obtain ⟨g, rfl⟩ : ∃ g, gas = g + 1 := ⟨gas - 1, by omega⟩
      obtain ⟨k', rem, hkr, hr1, hr2, hparse⟩ :=
        ih (len - 262) (by omega) (by omega) g (by omega)
      refine ⟨k' + 1, rem, by omega, hr1, hr2, ?_⟩
      simp only [parseMatchToks]
      rw [if_neg (by omega)]
      rw [if_pos (by rw [shr5_eq]; omega)]
      rw [hparse]
      have e2 : (224 + d / 256) % 32 = d / 256 := by omega
      rw [e2]
      have e3 : d / 256 * 256 + d % 256 + 1 = d + 1 := by omega
      rw [e3]
      simp [List.replicate_succ]
    · rw [if_neg h262] at hgas ⊢
      by_cases h7 : len < 7
      · rw [if_pos h7, if_neg (by omega : ¬ 7 ≤ len)] at hgas ⊢
        have hc0 : (len <<< 5 ||| d >>> 8) % 256 = 32 * len + d / 256 := by
          rw [shl5_lor len (d >>> 8) (by omega), hsh]
          omega
        rw [hc0] at hgas ⊢
        simp only [List.nil_append, List.length_cons] at hgas ⊢
        obtain ⟨g, rfl⟩ : ∃ g, gas = g + 1 := ⟨gas - 1, by omega⟩
        refine ⟨0, len, by omega, hlen, by omega, ?_⟩
        simp only [parseMatchToks]
        rw [if_neg (by omega)]
        rw [if_neg (by rw [shr5_eq]; omega)]
        rw [parseMatchToks_nil]
        have e1 : (32 * len + d / 256) >>> 5 = len := by
          rw [shr5_eq]
          omega
        have e2 : (32 * len + d / 256) % 32 = d / 256 := by omega
        rw [e1, e2]
        have e3 : d / 256 * 256 + d % 256 + 1 = d + 1 := by omega
        rw [e3]
        simp
      · rw [if_neg h7, if_pos (by omega : 7 ≤ len)] at hgas ⊢
        have hc0 : (7 <<< 5 ||| d >>> 8) % 256 = 224 + d / 256 := by
          rw [shl5_lor 7 (d >>> 8) (by omega), hsh]
          omega
        rw [hc0] at hgas ⊢
        simp only [List.cons_append, List.nil_append, List.length_cons] at hgas ⊢
        obtain ⟨g, rfl⟩ : ∃ g, gas = g + 1 := ⟨gas - 1, by omega⟩
        refine ⟨0, len, by omega, hlen, by omega, ?_⟩
        simp only [parseMatchToks]
        rw [if_neg (by omega)]
        rw [if_pos (by rw [shr5_eq]; omega)]
        rw [parseMatchToks_nil]
        have hext : (len - 7) % 256 = len - 7 := by omega
        have e2 : (224 + d / 256) % 32 = d / 256 := by omega
        rw [hext, e2]
        have e3 : d / 256 * 256 + d % 256 + 1 = d + 1 := by omega
        rw [e3]
        have e4 : len - 7 + 9 = len + 2 := by omega
        rw [e4]
        simp

/-- **C4** (amended) — Match splitting: the token encoder `match` splits an
over-long match into a sequence of chunk tokens at the same distance,
each decoding to length 262 (`LZ77_MAX_LEN - 2`, the extension byte is
`MAX_LEN - 2 - 7 - 2 = 253`, *not* the single-token maximum 264),
followed by one final token carrying the remainder, which decodes to
`rem + 2` for some `1 ≤ rem ≤ 262`, hence to at least 3: the encoder never
emits a dangling match shorter than the minimum match length.  (`len` is
the encoder's internal length convention: the decoded length is
`len + 2`.) -/
theorem C4_match_splitting (len dist : Nat) (hlen : 1 ≤ len) (hd1 : 1 ≤ dist)
    (hd : dist ≤ 8192) :
    ∃ k rem, len = 262 * k + rem ∧ 1 ≤ rem ∧ rem ≤ 262 ∧
      parseMatch (match' len dist) =
        some (List.replicate k (262, dist) ++ [(rem + 2, dist)]) := by
  have hdm : (dist + 4294967295) % 4294967296 = dist - 1 := by omega
  have hd' : dist - 1 < 8192 := by omega
  have hml : match' len dist = matchGo (dist - 1) (len + 1) len := by
    rw [match', hdm]
  obtain ⟨k, rem, hkr, hr1, hr2, hparse⟩ :=
    parse_matchGo (dist - 1) hd' len hlen (match' len dist).length
      (by rw [hml])
  refine ⟨k, rem, hkr, hr1, hr2, ?_⟩
  rw [hml] at hparse
  have hpp : dist - 1 + 1 = dist := by omega
  rw [hpp] at hparse
  rw [parseMatch, hml, hparse]

/-- Counterexample to the original C4 wording: the chunk tokens emitted for
an over-long match decode to length 262, not to the single-token maximum
264 — `match'` on encoder length 263 parses as a 262-chunk followed by a
length-3 remainder, and no emitted token decodes to 264. -/
theorem C4_match_splitting_counterexample :
    parseMatch (match' 263 1) = some [(262, 1), (3, 1)] ∧
      ∀ p ∈ [(262, 1), (3, 1)], (p : Nat × Nat).1 ≠ 264 := by decide

theorem C4_match_splitting_witness :
    ∃ k rem, 263 = 262 * k + rem ∧ 1 ≤ rem ∧ rem ≤ 262 ∧
      parseMatch (match' 263 1) =
        some (List.replicate k (262, 1) ++ [(rem + 2, 1)]) :=
  C4_match_splitting 263 1 (by decide) (by decide) (by decide)

/-! ## Compressed-size bound -/

theorem mainLoopGo_size (x : List Nat) (L : Nat) (hb : ByteOk x)
    (hL32 : L < 4294967296) (hL13 : 13 ≤ L) (hxL : x.length = L) :
    ∀ (fuel ip anchor : Nat) (htab : Nat → Nat),
      anchor ≤ ip → ip ≤ L → (∀ h < 8192, htab h < ip) → L ≤ ip + fuel →
      (mainLoopGo x L fuel ip anchor htab).length ≤
        (L - anchor) + (L - anchor) / 32 + 1 := by
  intro fuel
  induction fuel with
  | zero =>
    intro ip anchor htab hai hil hht hfuel
    simp only [mainLoopGo]
    rw [literals_length]
    omega
  | succ fuel ih =>
    intro ip anchor htab hai hil hht hfuel
    by_cases hip : ip < L - 13
    · rcases hfm : findMatch x (L - 13) ip htab with ⟨htab1, res⟩
      rcases res with _ | trip
      · simp only [mainLoopGo, if_pos hip, hfm]
        rw [literals_length]
        omega
      · obtain ⟨c, ref, dis⟩ := trip
        have hfmg : findMatchGo x (L - 13) (L - 13 + 1 - ip) ip htab =
            (htab1, some (c, ref, dis)) := hfm
        have hfacts := findMatchGo_some x (L - 13) hb (by omega)
          (L - 13 + 1 - ip) ip htab htab1 c ref dis (by omega) hht hfmg
        obtain ⟨hic, hclim, hrefc, hdis, hdis8, hseqe, hh1⟩ := hfacts
        obtain ⟨lazy, len, dist, hbytes, hlazy2, hlen1, hlazylen, hdist1,
          hdist8, hdistp, hip3, hle, hcontent, hh3⟩ :=
          step_spec x L c ref dis htab1 hb (by omega) hclim hrefc hdis hdis8
            hseqe hh1
        have hih := ih ((step x L c ref dis htab1).2.1)
          ((step x L c ref dis htab1).2.1) ((step x L c ref dis htab1).2.2)
          le_rfl (by omega) hh3 (by omega)
        rw [hip3] at hih
        simp only [mainLoopGo, if_pos hip, hfm]
        rw [hbytes, hip3]
        have hm := matchGo_length ((dist + 4294967295) % 4294967296) len hlen1
        have hm1 : (match' len dist).length ≤ len + 1 := hm.1
        simp only [List.length_append, literals_length]
        by_cases hac : anchor < c
        · rw [if_pos hac]
          rw [literals_length]
          by_cases hlz : 1 ≤ lazy
          · have hm2 : (match' len dist).length ≤ len := hm.2 (hlazylen hlz)
            omega
          · omega
        · rw [if_neg hac]
          simp only [List.length_nil]
          by_cases hlz : 1 ≤ lazy
          · have hm2 : (match' len dist).length ≤ len := hm.2 (hlazylen hlz)
            omega
          · omega
    · simp only [mainLoopGo, if_neg hip]
      rw [literals_length]
      omega

/-- **C5** — Compressed-size bound: for every input of positive length `l`
(with bytes below 256), `lz77_compress` emits at most
`l + l/32 + 128` bytes, so a caller who sizes the output buffer to
`l + l/32 + 128` bytes never suffers an out-of-bounds write, even on
incompressible input.  (The proof in fact bounds the output by
`l + l/32 + 1`.) -/
theorem C5_size_bound (x : List Nat) (l : Int) (w : Nat → Nat)
    (hby : ByteOk x) (hxl : x.length = l.toNat) (h1 : 1 ≤ l)
    (hlt : l < 4294967296) :
    (lz77_compress x l w).length ≤ l.toNat + l.toNat / 32 + 128 := by
  unfold lz77_compress
  rw [if_neg (by omega)]
  by_cases h13 : l < 13
  · rw [if_pos h13]
    rw [literals_length]
    omega
  · rw [if_neg h13]
    show (mainLoopGo x l.toNat l.toNat 2 0
        (fun i => if i < 8192 then 0 else w i)).length ≤
      l.toNat + l.toNat / 32 + 128
    have := mainLoopGo_size x l.toNat hby (by omega) (by omega) hxl
      l.toNat 2 0 (fun i => if i < 8192 then 0 else w i)
      (by omega) (by omega)
      (fun h hh => by
        show (if h < 8192 then 0 else w h) < 2
        rw [if_pos hh]
        omega) (by omega)
    omega

theorem C5_size_bound_witness :
    (lz77_compress (List.replicate 20 65) 20 (fun _ => 0)).length ≤
      (20 : Int).toNat + (20 : Int).toNat / 32 + 128 :=
  C5_size_bound (List.replicate 20 65) 20 (fun _ => 0)
    (byteOk_of_mem (by decide)) (by decide) (by decide) (by decide)
